import Mathlib

/-!
Verification development for the TorrQ repository (`torrent_client.py`).

The repository's specification describes two layers:

* a "core" bencode codec and torrent-metadata extractor (spec §2–§4, §7, §8).
  No source file of the repository implements this core (the shipped
  `torrent_client.py` only contains the CLI/search collaborator), so the core
  is modelled here directly from the spec's words; such definitions carry a
  doc comment starting with `Modelled from the spec:`.

* the CLI collaborator in `src/torrent_client.py` (magnet-link construction,
  result-table sorting, the interactive selection loop, `_format_size`).
  Those functions are translated from the Python source.

Byte strings are modelled as `List Nat` (each entry one byte); Python text
strings are modelled as `List Char`.
-/

namespace TorrQ

/-- Modelled from the spec: `BencodeValue` — tagged union of the four bencode
primitive kinds (§3): arbitrary-precision integer, opaque byte string, ordered
list, and a dictionary of byte-string keys to values (kept as an ordered
association list; canonical encoding sorts the keys). -/
inductive Bencode where
  | int : Int → Bencode
  | str : List Nat → Bencode
  | list : List Bencode → Bencode
  | dict : List (List Nat × Bencode) → Bencode

/-! ## Byte-lexicographic order on byte strings (spec §3, §4.2) -/

/-- Modelled from the spec: strict ascending byte-lexicographic order on raw
key bytes ("sorted by ascending byte-lexicographic order of the key's raw
bytes", §4.2). -/
def bytesLt : List Nat → List Nat → Bool
  | [], [] => false
  | [], _ :: _ => true
  | _ :: _, [] => false
  | a :: as, b :: bs => a < b || (a = b && bytesLt as bs)

/-- Non-strict byte-lexicographic order: strictly less or equal. -/
def bytesLe (a b : List Nat) : Bool := bytesLt a b || a = b

/-- The (non-strict) order used to sort dictionary entries by key. -/
def pairLe (p q : List Nat × Bencode) : Prop := bytesLe p.1 q.1 = true

instance : DecidableRel pairLe := fun p q => by
  unfold pairLe
  infer_instance

/-- Modelled from the spec: sorting of dictionary entries by ascending
byte-lexicographic key order (§4.2); a stable sort, matching the reference
behaviour of canonical producers. -/
def sortPairs (d : List (List Nat × Bencode)) : List (List Nat × Bencode) :=
  List.insertionSort pairLe d

/-! ## Decimal digit rendering and scanning (ASCII bytes 48–57) -/

/-- Whether a byte is an ASCII decimal digit. -/
def isDigit (b : Nat) : Bool := 48 ≤ b && b ≤ 57

/-- Canonical decimal rendering of a natural number as ASCII digit bytes
(no leading zeros; `0` renders as `"0"`). -/
def natDigits (n : Nat) : List Nat :=
  if n < 10 then [n + 48] else natDigits (n / 10) ++ [n % 10 + 48]
termination_by n
decreasing_by exact Nat.div_lt_self (by omega) (by omega)

/-- Numeric value of a scanned ASCII digit run. -/
def digitsVal (ds : List Nat) : Nat := ds.foldl (fun a d => a * 10 + (d - 48)) 0

/-- Splits the longest leading run of ASCII digits off a byte list. -/
def takeDigits : List Nat → List Nat × List Nat
  | [] => ([], [])
  | b :: bs =>
    if isDigit b then
      let p := takeDigits bs
      (b :: p.1, p.2)
    else ([], b :: bs)

/-! ## Bencode encoder (spec §4.2)

The spec's `encode` first canonicalizes the tree (sorting every dictionary by
ascending byte-lexicographic key order) and then serializes it; `encodeRaw`
below is the plain serializer and `canon` the canonicalization pass, so
`encode = encodeRaw ∘ canon` realizes §4.2's "pairs sorted by ascending
byte-lexicographic order of the key's raw bytes". -/

/-- Decimal rendering of a bencode integer body: `-` for negatives, canonical
digits, `0` renders as `0` (spec §4.2: no leading zeros, `-` for negative). -/
def intDigits (n : Int) : List Nat :=
  if n < 0 then 45 :: natDigits n.natAbs else natDigits n.toNat

/-- Serialization of a byte string: decimal length, `:` (58), raw bytes. -/
def encodeStr (s : List Nat) : List Nat := natDigits s.length ++ 58 :: s

mutual

/-- Modelled from the spec: plain bencode serializer (§4.2) — `i…e` integers,
`len:bytes` strings, `l…e` lists, `d…e` dictionaries with pairs emitted in the
order given (sorting is performed by `canon` before this runs). -/
def encodeRaw : Bencode → List Nat
  | .int n => 105 :: intDigits n ++ [101]
  | .str s => encodeStr s
  | .list l => 108 :: encodeRawList l ++ [101]
  | .dict d => 100 :: encodeRawPairs d ++ [101]

/-- Serializes list elements in their original order. -/
def encodeRawList : List Bencode → List Nat
  | [] => []
  | v :: vs => encodeRaw v ++ encodeRawList vs

/-- Serializes dictionary pairs as `encode(key) ++ encode(value)` in order. -/
def encodeRawPairs : List (List Nat × Bencode) → List Nat
  | [] => []
  | p :: ps => encodeStr p.1 ++ encodeRaw p.2 ++ encodeRawPairs ps

end

mutual

/-- Modelled from the spec: canonicalization — recursively sorts every
dictionary's pairs by ascending byte-lexicographic key order (§4.2). -/
def canon : Bencode → Bencode
  | .int n => .int n
  | .str s => .str s
  | .list l => .list (canonList l)
  | .dict d => .dict (sortPairs (canonPairs d))

/-- Canonicalizes each element of a list. -/
def canonList : List Bencode → List Bencode
  | [] => []
  | v :: vs => canon v :: canonList vs

/-- Canonicalizes each value of a pair list (keys unchanged). -/
def canonPairs : List (List Nat × Bencode) → List (List Nat × Bencode)
  | [] => []
  | p :: ps => (p.1, canon p.2) :: canonPairs ps

end

/-- Modelled from the spec: canonical byte serialization of a bencode value —
every dictionary's pairs are emitted sorted by ascending byte-lexicographic
key order (§4.2). Integers are arbitrary-precision (the spec's sanctioned
choice), so the `IntegerOutOfRange` failure path of §4.2 is empty and
`encode` is total. -/
def encode (v : Bencode) : List Nat := encodeRaw (canon v)

/-- Keys of a pair list are in strictly ascending byte-lexicographic order. -/
def keysStrictSorted : List (List Nat) → Bool
  | [] => true
  | [_] => true
  | k1 :: k2 :: ks => bytesLt k1 k2 && keysStrictSorted (k2 :: ks)

/-- No key occurs twice in a pair list. -/
def nodupKeys : List (List Nat × Bencode) → Bool
  | [] => true
  | p :: ps => !(ps.any (fun q => q.1 = p.1)) && nodupKeys ps

mutual

/-- A bencode tree is canonical: every dictionary (at any depth) has its keys
in strictly ascending byte-lexicographic order. -/
def canonicalB : Bencode → Bool
  | .int _ => true
  | .str _ => true
  | .list l => canonicalBList l
  | .dict d => keysStrictSorted (d.map Prod.fst) && canonicalBPairs d

/-- Every element of the list is canonical. -/
def canonicalBList : List Bencode → Bool
  | [] => true
  | v :: vs => canonicalB v && canonicalBList vs

/-- Every value of the pair list is canonical. -/
def canonicalBPairs : List (List Nat × Bencode) → Bool
  | [] => true
  | p :: ps => canonicalB p.2 && canonicalBPairs ps

end

mutual

/-- A bencode tree is valid: every dictionary (at any depth) has pairwise
distinct keys (spec §3: "keys unique"); key order is unconstrained. -/
def validKeys : Bencode → Bool
  | .int _ => true
  | .str _ => true
  | .list l => validKeysList l
  | .dict d => nodupKeys d && validKeysPairs d

/-- Every element of the list is valid. -/
def validKeysList : List Bencode → Bool
  | [] => true
  | v :: vs => validKeys v && validKeysList vs

/-- Every value of the pair list is valid. -/
def validKeysPairs : List (List Nat × Bencode) → Bool
  | [] => true
  | p :: ps => validKeys p.2 && validKeysPairs ps

end

/-! ## Bencode decoder (spec §4.1)

Modelled from the spec: recursive-descent parser over a byte cursor; every
structured failure carries information per §4.1's taxonomy, with
`unexpectedEof`/`unexpectedToken` carrying the byte offset where parsing
stopped. The decoder is permissive about dictionary key order (the spec's
recommended choice) but rejects repeated keys with `duplicateKey`. In line
with the spec's "no artificial depth limit in the reference behavior", the
`nestingTooDeep` hardening error exists in the taxonomy but the fuel passed
by `decode` is generous enough that it is never produced on reachable inputs.
-/

/-- Modelled from the spec: the `DecodeError` taxonomy of §7/§4.1. -/
inductive DecodeError where
  | malformedInteger : Nat → DecodeError
  | malformedString : Nat → DecodeError
  | malformedDictionary : Nat → DecodeError
  | duplicateKey : Nat → DecodeError
  | unexpectedEof : Nat → DecodeError
  | unexpectedToken : Nat → DecodeError
  | trailingData : Nat → DecodeError
  | nestingTooDeep : Nat → DecodeError
deriving DecidableEq

/-- Parses a byte-string body: decimal length (no leading zero except `0`
itself), `:` (58), then exactly that many raw bytes. `pos` is the offset of
the first length digit; returns the bytes, the offset one past the string,
and the unconsumed remainder. -/
def parseStrBody (pos : Nat) (bytes : List Nat) :
    Except DecodeError (List Nat × Nat × List Nat) :=
  let p := takeDigits bytes
  if p.1 = [] then .error (.malformedString pos)
  else if p.1.head? = some 48 && p.1 ≠ [48] then .error (.malformedString pos)
  else
    match p.2 with
    | 58 :: rest =>
      let len := digitsVal p.1
      if rest.length < len then .error (.malformedString pos)
      else .ok (rest.take len, pos + p.1.length + 1 + len, rest.drop len)
    | [] => .error (.unexpectedEof (pos + p.1.length))
    | _ => .error (.malformedString pos)

/-- Parses an integer body after the leading `i`: optional `-` (45), decimal
digits with no leading zero (and `-0` rejected), then `e` (101). `pos` is the
offset of the byte after the `i`. -/
def parseIntBody (pos : Nat) (bytes : List Nat) :
    Except DecodeError (Bencode × Nat × List Nat) :=
  if bytes.head? = some 45 then
    let p := takeDigits bytes.tail
    if p.1 = [] then .error (.malformedInteger pos)
    else if p.1.head? = some 48 then .error (.malformedInteger pos)
    else
      match p.2 with
      | 101 :: rest => .ok (.int (-(digitsVal p.1 : Int)), pos + p.1.length + 2, rest)
      | [] => .error (.unexpectedEof (pos + 1 + p.1.length))
      | _ => .error (.malformedInteger pos)
  else
    let p := takeDigits bytes
    if p.1 = [] then .error (.malformedInteger pos)
    else if p.1.head? = some 48 && p.1 ≠ [48] then .error (.malformedInteger pos)
    else
      match p.2 with
      | 101 :: rest => .ok (.int (digitsVal p.1 : Int), pos + p.1.length + 1, rest)
      | [] => .error (.unexpectedEof (pos + p.1.length))
      | _ => .error (.malformedInteger pos)

mutual

/-- Modelled from the spec: parses one bencode value at offset `pos`,
returning the value, the offset one past it, and the unconsumed remainder.
`fuel` bounds recursion depth (hardening; `decode` supplies enough fuel that
it never runs out). -/
def parseVal : Nat → Nat → List Nat → Except DecodeError (Bencode × Nat × List Nat)
  | 0, pos, _ => .error (.nestingTooDeep pos)
  | fuel + 1, pos, bytes =>
    match bytes with
    | [] => .error (.unexpectedEof pos)
    | b :: bs =>
      if b = 105 then parseIntBody (pos + 1) bs
      else if b = 108 then
        match parseItems fuel (pos + 1) bs with
        | .ok (l, p, r) => .ok (.list l, p, r)
        | .error e => .error e
      else if b = 100 then
        match parsePairs fuel (pos + 1) bs with
        | .ok (d, p, r) => .ok (.dict d, p, r)
        | .error e => .error e
      else if isDigit b then
        match parseStrBody pos (b :: bs) with
        | .ok (s, p, r) => .ok (.str s, p, r)
        | .error e => .error e
      else .error (.unexpectedToken pos)

/-- Parses list elements up to the closing `e` (101). -/
def parseItems : Nat → Nat → List Nat → Except DecodeError (List Bencode × Nat × List Nat)
  | 0, pos, _ => .error (.nestingTooDeep pos)
  | fuel + 1, pos, bytes =>
    match bytes with
    | [] => .error (.unexpectedEof pos)
    | b :: bs =>
      if b = 101 then .ok ([], pos + 1, bs)
      else
        match parseVal fuel pos (b :: bs) with
        | .error e => .error e
        | .ok (v, p, r) =>
          match parseItems fuel p r with
          | .error e => .error e
          | .ok (vs, p2, r2) => .ok (v :: vs, p2, r2)

/-- Parses dictionary pairs up to the closing `e` (101): each key must be a
byte string (else `malformedDictionary`), and a repeated key fails with
`duplicateKey`. -/
def parsePairs : Nat → Nat → List Nat →
    Except DecodeError (List (List Nat × Bencode) × Nat × List Nat)
  | 0, pos, _ => .error (.nestingTooDeep pos)
  | fuel + 1, pos, bytes =>
    match bytes with
    | [] => .error (.unexpectedEof pos)
    | b :: bs =>
      if b = 101 then .ok ([], pos + 1, bs)
      else if isDigit b then
        match parseStrBody pos (b :: bs) with
        | .error e => .error e
        | .ok (k, p, r) =>
          match parseVal fuel p r with
          | .error e => .error e
          | .ok (v, p2, r2) =>
            match parsePairs fuel p2 r2 with
            | .error e => .error e
            | .ok (ps, p3, r3) =>
              if ps.any (fun q => q.1 = k) then .error (.duplicateKey pos)
              else .ok ((k, v) :: ps, p3, r3)
      else .error (.malformedDictionary pos)

end

/-- Modelled from the spec: `decode(bytes) -> BencodeValue` — parses a single
top-level value starting at offset 0 and fails with `trailingData` if
unconsumed bytes remain (§4.1). -/
def decode (b : List Nat) : Except DecodeError Bencode :=
  match parseVal (2 * b.length + 2) 0 b with
  | .error e => .error e
  | .ok (v, pos, rest) => if rest = [] then .ok v else .error (.trailingData pos)

/-! ## Round-trip: parsing a canonical encoding -/

mutual

/-- Recursion depth (fuel) needed by `parseVal` on the encoding of `v`. -/
def costV : Bencode → Nat
  | .int _ => 1
  | .str _ => 1
  | .list l => 1 + costL l
  | .dict d => 1 + costP d

/-- Fuel needed by `parseItems` on the encoding of the elements. -/
def costL : List Bencode → Nat
  | [] => 1
  | v :: vs => 1 + costV v + costL vs

/-- Fuel needed by `parsePairs` on the encoding of the pairs. -/
def costP : List (List Nat × Bencode) → Nat
  | [] => 1
  | p :: ps => 1 + costV p.2 + costP ps

end

/-- Statement of the round-trip property for a single value, abbreviated for
use as an induction motive. -/
def ParsesBack (v : Bencode) : Prop :=
  canonicalB v = true → ∀ fuel pos rest, costV v ≤ fuel →
    parseVal fuel pos (encodeRaw v ++ rest) = .ok (v, pos + (encodeRaw v).length, rest)

/-! ## SHA-1 (used by the metadata extractor for the info hash, spec §3/§4.3) -/

/-- Truncation to a 32-bit word. -/
def w32 (x : Nat) : Nat := x % 4294967296

/-- Left rotation of a 32-bit word by `n` bits. -/
def rotl (n x : Nat) : Nat :=
  ((x <<< n) % 4294967296) ||| (x >>> (32 - n))

/-- Big-endian bytes (width `k`) of a number. -/
def beBytes : Nat → Nat → List Nat
  | 0, _ => []
  | k + 1, x => beBytes k (x / 256) ++ [x % 256]

/-- Groups a byte list into 32-bit big-endian words (4 bytes each). -/
def toWords : List Nat → List Nat
  | b0 :: b1 :: b2 :: b3 :: rest => (((b0 * 256 + b1) * 256 + b2) * 256 + b3) :: toWords rest
  | _ => []

/-- One message-schedule extension step: appends
`rotl 1 (w[n-3] xor w[n-8] xor w[n-14] xor w[n-16])`. -/
def sha1ExtendStep (ws : List Nat) : List Nat :=
  ws ++ [rotl 1 (Nat.xor (Nat.xor (ws.getD (ws.length - 3) 0) (ws.getD (ws.length - 8) 0))
    (Nat.xor (ws.getD (ws.length - 14) 0) (ws.getD (ws.length - 16) 0)))]

/-- Extends the 16 schedule words by `k` more. -/
def sha1Extend : Nat → List Nat → List Nat
  | 0, ws => ws
  | k + 1, ws => sha1Extend k (sha1ExtendStep ws)

/-- The SHA-1 round function for round `i`. -/
def sha1F (i b c d : Nat) : Nat :=
  if i < 20 then Nat.lor (Nat.land b c) (Nat.land (Nat.xor b 4294967295) d)
  else if i < 40 then Nat.xor (Nat.xor b c) d
  else if i < 60 then Nat.lor (Nat.lor (Nat.land b c) (Nat.land b d)) (Nat.land c d)
  else Nat.xor (Nat.xor b c) d

/-- The SHA-1 round constant for round `i`. -/
def sha1K (i : Nat) : Nat :=
  if i < 20 then 1518500249
  else if i < 40 then 1859775393
  else if i < 60 then 2400959708
  else 3395469782

/-- One SHA-1 compression round on the state `(a, b, c, d, e)`. -/
def sha1Round (st : Nat × Nat × Nat × Nat × Nat) (iw : Nat × Nat) :
    Nat × Nat × Nat × Nat × Nat :=
  let a := st.1
  let b := st.2.1
  let c := st.2.2.1
  let d := st.2.2.2.1
  let e := st.2.2.2.2
  (w32 (rotl 5 a + sha1F iw.1 b c d + e + sha1K iw.1 + iw.2), a, rotl 30 b, c, d)

/-- Compresses one 64-byte block into the running hash state. -/
def sha1Block (h : Nat × Nat × Nat × Nat × Nat) (block : List Nat) :
    Nat × Nat × Nat × Nat × Nat :=
  let ws := sha1Extend 64 (toWords block)
  let r := ws.enum.foldl sha1Round h
  (w32 (h.1 + r.1), w32 (h.2.1 + r.2.1), w32 (h.2.2.1 + r.2.2.1),
    w32 (h.2.2.2.1 + r.2.2.2.1), w32 (h.2.2.2.2 + r.2.2.2.2))

/-- Splits a byte list into 64-byte chunks. -/
def chunks64 : List Nat → List (List Nat)
  | [] => []
  | b :: bs => (b :: bs).take 64 :: chunks64 ((b :: bs).drop 64)
termination_by l => l.length
decreasing_by simp; omega

/-- SHA-1 padding: `0x80`, zeros to 56 mod 64, then the 64-bit big-endian
bit length of the message. -/
def sha1Pad (msg : List Nat) : List Nat :=
  msg ++ 128 :: List.replicate ((64 + 55 - msg.length % 64) % 64) 0 ++
    beBytes 8 (8 * msg.length)

/-- Modelled from the spec: the cryptographic digest (SHA-1) used for
`infoHash` (§3) — 20 bytes. -/
def sha1 (msg : List Nat) : List Nat :=
  let h := (chunks64 (sha1Pad msg)).foldl sha1Block
    (1732584193, 4023233417, 2562383102, 271733878, 3285377520)
  beBytes 4 h.1 ++ beBytes 4 h.2.1 ++ beBytes 4 h.2.2.1 ++
    beBytes 4 h.2.2.2.1 ++ beBytes 4 h.2.2.2.2

/-! ## Torrent metadata extractor (spec §3, §4.3)

Modelled from the spec. Where the spec leaves a documented choice — `name`
interpreted as UTF-8 text with `InvalidEncoding` on failure, or a
byte-preserving fallback — this model takes the byte-preserving option (the
spec: "implementers may choose lossy decoding instead of hard failure, but
must document the choice"), so `name` and path components stay raw byte
strings and `invalidEncoding` is never produced. -/

/-- Modelled from the spec: errors of the metadata extractor (§7):
`SchemaError` names the offending field; `InvalidEncoding` exists in the
taxonomy but is unused under the documented byte-preserving choice. -/
inductive TorrentError where
  | schemaError : String → TorrentError
  | invalidEncoding : String → TorrentError
deriving DecidableEq

/-- One file of a Multiple-layout torrent: non-empty path component sequence
and byte length (§3). -/
structure FileEntry where
  path : List (List Nat)
  length : Int
deriving DecidableEq

/-- Modelled from the spec: `layout` — `Single { length }` or
`Multiple { files }` (§3). -/
inductive Layout where
  | single : Int → Layout
  | multiple : List FileEntry → Layout
deriving DecidableEq

/-- `totalLength` is the single length or the sum of the file lengths (§3). -/
def totalLength : Layout → Int
  | .single n => n
  | .multiple fs => (fs.map FileEntry.length).sum

/-- Modelled from the spec: `TorrentMetadata` (§3), immutable once built. -/
structure TorrentMetadata where
  infoHash : List Nat
  announceList : List (List Nat)
  name : List Nat
  pieceLength : Int
  pieces : List (List Nat)
  layout : Layout
deriving DecidableEq

/-- First-match lookup of a key in a decoded dictionary's pair list. -/
def lookupD (d : List (List Nat × Bencode)) (k : List Nat) : Option Bencode :=
  match d with
  | [] => none
  | (k2, v) :: rest => if k2 = k then some v else lookupD rest k

/-- Key bytes of `"info"`. -/
def keyInfo : List Nat := [105, 110, 102, 111]

/-- Key bytes of `"name"`. -/
def keyName : List Nat := [110, 97, 109, 101]

/-- Key bytes of `"length"`. -/
def keyLength : List Nat := [108, 101, 110, 103, 116, 104]

/-- Key bytes of `"files"`. -/
def keyFiles : List Nat := [102, 105, 108, 101, 115]

/-- Key bytes of `"piece length"`. -/
def keyPieceLength : List Nat := [112, 105, 101, 99, 101, 32, 108, 101, 110, 103, 116, 104]

/-- Key bytes of `"pieces"`. -/
def keyPieces : List Nat := [112, 105, 101, 99, 101, 115]

/-- Key bytes of `"announce"`. -/
def keyAnnounce : List Nat := [97, 110, 110, 111, 117, 110, 99, 101]

/-- Key bytes of `"announce-list"`. -/
def keyAnnounceList : List Nat :=
  [97, 110, 110, 111, 117, 110, 99, 101, 45, 108, 105, 115, 116]

/-- Key bytes of `"path"`. -/
def keyPath : List Nat := [112, 97, 116, 104]

/-- Extracts a list of byte strings; `none` if any element is not a string. -/
def strList : List Bencode → Option (List (List Nat))
  | [] => some []
  | .str s :: rest => (strList rest).map (fun ss => s :: ss)
  | _ => none

/-- Modelled from the spec: flattens `announce-list` tiers into one ordered
URL sequence, preserving tier and in-tier order (§3). -/
def flattenTiers : List Bencode → Option (List (List Nat))
  | [] => some []
  | .list tier :: rest =>
    match strList tier, flattenTiers rest with
    | some us, some more => some (us ++ more)
    | _, _ => none
  | _ => none

/-- Modelled from the spec: builds `announceList` from `announce-list` if
present, else the single `announce` wrapped in a one-element sequence, else
empty; entries must be non-empty (§3 invariants). -/
def extractAnnounce (d : List (List Nat × Bencode)) :
    Except TorrentError (List (List Nat)) :=
  match lookupD d keyAnnounceList with
  | some (.list tiers) =>
    match flattenTiers tiers with
    | some urls =>
      if urls.all (fun u => !u.isEmpty) then .ok urls
      else .error (.schemaError "announce-list")
    | none => .error (.schemaError "announce-list")
  | some _ => .error (.schemaError "announce-list")
  | none =>
    match lookupD d keyAnnounce with
    | some (.str u) =>
      if u.isEmpty then .error (.schemaError "announce") else .ok [u]
    | some _ => .error (.schemaError "announce")
    | none => .ok []

/-- Modelled from the spec: splits the `pieces` byte string into fixed
20-byte hash values; the byte-string length MUST be an exact multiple of 20,
otherwise the documented `SchemaError` (§3, §8 "Piece splitting"). -/
def splitPieces : List Nat → Except TorrentError (List (List Nat))
  | [] => .ok []
  | b :: bs =>
    if 20 ≤ (b :: bs).length then
      match splitPieces ((b :: bs).drop 20) with
      | .ok rest => .ok ((b :: bs).take 20 :: rest)
      | .error e => .error e
    else .error (.schemaError "pieces")
termination_by l => l.length
decreasing_by simp; omega

/-- Modelled from the spec: one entry of `files` — a dictionary with a
non-empty `path` component list and an integer `length` (§3). -/
def parseFile : Bencode → Except TorrentError FileEntry
  | .dict fd =>
    match lookupD fd keyPath, lookupD fd keyLength with
    | some (.list comps), some (.int n) =>
      match strList comps with
      | some cs => if cs.isEmpty then .error (.schemaError "path") else .ok ⟨cs, n⟩
      | none => .error (.schemaError "path")
    | _, _ => .error (.schemaError "files")
  | _ => .error (.schemaError "files")

/-- Parses every entry of the `files` list in order. -/
def parseFiles : List Bencode → Except TorrentError (List FileEntry)
  | [] => .ok []
  | f :: fs =>
    match parseFile f, parseFiles fs with
    | .ok e, .ok es => .ok (e :: es)
    | .error e, _ => .error e
    | _, .error e => .error e

/-- Modelled from the spec: exactly one of `length` (Single layout) or
`files` (Multiple layout) must be present, never both, never neither
(§4.3, §8 "Schema mutual exclusion"). -/
def extractLayout (info : List (List Nat × Bencode)) : Except TorrentError Layout :=
  match lookupD info keyLength, lookupD info keyFiles with
  | some _, some _ => .error (.schemaError "length/files")
  | some (.int n), none => .ok (.single n)
  | some _, none => .error (.schemaError "length")
  | none, some (.list fs) =>
    match parseFiles fs with
    | .ok es => .ok (.multiple es)
    | .error e => .error e
  | none, some _ => .error (.schemaError "files")
  | none, none => .error (.schemaError "length/files")

/-- Modelled from the spec: `piece length` must be a positive integer (§3). -/
def extractPieceLength (info : List (List Nat × Bencode)) : Except TorrentError Int :=
  match lookupD info keyPieceLength with
  | some (.int n) => if 0 < n then .ok n else .error (.schemaError "piece length")
  | some _ => .error (.schemaError "piece length")
  | none => .error (.schemaError "piece length")

/-- Modelled from the spec: `pieces` must be a byte string whose length is a
multiple of 20, split into 20-byte hashes (§3). -/
def extractPieces (info : List (List Nat × Bencode)) :
    Except TorrentError (List (List Nat)) :=
  match lookupD info keyPieces with
  | some (.str s) => splitPieces s
  | some _ => .error (.schemaError "pieces")
  | none => .error (.schemaError "pieces")

/-- Modelled from the spec: `fromDecoded(root) -> TorrentMetadata` (§4.3) —
root must be a dictionary; `info` must exist and be a dictionary; the `info`
sub-tree is re-encoded canonically and hashed with SHA-1 for `infoHash`;
`announce`/`announce-list` build `announceList`; then `name`, the
`length`/`files` mutual exclusion, `piece length` and `pieces` are checked in
that fixed order. -/
def fromDecoded (root : Bencode) : Except TorrentError TorrentMetadata :=
  match root with
  | .dict d =>
    match lookupD d keyInfo with
    | some (.dict infoD) =>
      let ih := sha1 (encode (.dict infoD))
      match extractAnnounce d with
      | .error e => .error e
      | .ok ann =>
        match lookupD infoD keyName with
        | some (.str nm) =>
          match extractLayout infoD with
          | .error e => .error e
          | .ok lay =>
            match extractPieceLength infoD with
            | .error e => .error e
            | .ok pl =>
              match extractPieces infoD with
              | .error e => .error e
              | .ok ps => .ok ⟨ih, ann, nm, pl, ps, lay⟩
        | some _ => .error (.schemaError "name")
        | none => .error (.schemaError "name")
    | some _ => .error (.schemaError "info")
    | none => .error (.schemaError "info")
  | _ => .error (.schemaError "root")

/-- Modelled from the spec: the full core pipeline — decode the raw bytes,
then extract the metadata; every failure of either stage is returned to the
caller as a structured error value (§7). -/
def parseTorrent (b : List Nat) : Except (DecodeError ⊕ TorrentError) TorrentMetadata :=
  match decode b with
  | .error e => .error (.inl e)
  | .ok v =>
    match fromDecoded v with
    | .error e => .error (.inr e)
    | .ok m => .ok m

/-- Whether a `TorrentError` is a `SchemaError`. -/
def isSchemaErr : TorrentError → Bool
  | .schemaError _ => true
  | .invalidEncoding _ => false

/-! ## The CLI collaborator, translated from `src/torrent_client.py`

Python text strings are modelled as `List Char`. -/

/-- UTF-8 bytes of one character (used by `quotePlus` for non-safe chars). -/
def utf8Bytes (c : Char) : List Nat :=
  let n := c.toNat
  if n < 128 then [n]
  else if n < 2048 then [192 + n / 64, 128 + n % 64]
  else if n < 65536 then [224 + n / 4096, 128 + (n / 64) % 64, 128 + n % 64]
  else [240 + n / 262144, 128 + (n / 4096) % 64, 128 + (n / 64) % 64, 128 + n % 64]

/-- Uppercase hex digit for a value below 16. -/
def hexDigitU (n : Nat) : Char :=
  if n < 10 then Char.ofNat (48 + n) else Char.ofNat (55 + n)

/-- Percent-encoding of one byte, `%XX` with uppercase hex. -/
def pctByte (b : Nat) : List Char := ['%', hexDigitU (b / 16), hexDigitU (b % 16)]

/-- Characters `urllib.parse.quote_plus` leaves unencoded. -/
def quoteSafe (c : Char) : Bool :=
  c.isAlphanum || c = '_' || c = '.' || c = '-' || c = '~'

/-- Model of Python's `urllib.parse.quote_plus`: safe characters kept, space
becomes `+`, every other character percent-encoded per UTF-8 byte. -/
def quotePlus (s : List Char) : List Char :=
  s.flatMap fun c =>
    if quoteSafe c then [c]
    else if c = ' ' then ['+'] else (utf8Bytes c).flatMap pctByte

/-- The tracker list of `ThePirateBayProvider.__init__`
(`src/torrent_client.py` lines 129–135). -/
def tpbTrackers : List (List Char) :=
  ["udp://tracker.coppersurfer.tk:6969/announce".data,
   "udp://9.rarbg.to:2920/announce".data,
   "udp://tracker.opentrackr.org:1337".data,
   "udp://tracker.internetwarriors.net:1337/announce".data,
   "udp://tracker.leechers-paradise.org:6969/announce".data]

/-- The `&tr=...` tail of the magnet link (`_build_magnet_link` line 166). -/
def trackerParams : List Char :=
  (tpbTrackers.map (fun t => "&tr=".data ++ quotePlus t)).flatten

/-- `ThePirateBayProvider._build_magnet_link` (`src/torrent_client.py`
lines 165–167): `magnet:?xt=urn:btih:{info_hash}&dn={quote_plus(name)}` plus
the tracker parameters; the provider-supplied `info_hash` string is embedded
verbatim. -/
def buildMagnetLink (info_hash nm : List Char) : List Char :=
  "magnet:?xt=urn:btih:".data ++ info_hash ++ "&dn=".data ++ quotePlus nm ++
    trackerParams

/-- The hash segment of a magnet link: the characters after the 20-character
marker `magnet:?xt=urn:btih:` up to the first `&`. -/
def magnetHashSegment (s : List Char) : List Char :=
  (s.drop 20).takeWhile (fun c => c ≠ '&')

/-- Whether a string is exactly 40 lowercase hexadecimal characters. -/
def isLowerHex40 (s : List Char) : Bool :=
  s.length = 40 && s.all (fun c => c.isDigit || ('a' ≤ c && c ≤ 'f'))

/-- ASCII whitespace stripped by Python's `str.strip()` (the model covers the
ASCII range; the CLI's inputs are keyboard text). -/
def pyWS (c : Char) : Bool :=
  c = ' ' || c = '\t' || c = '\n' || c = '\r' || c = '\x0b' || c = '\x0c'

/-- Model of Python's `str.strip()`: drops leading and trailing whitespace. -/
def stripWS (s : List Char) : List Char :=
  ((s.dropWhile pyWS).reverse.dropWhile pyWS).reverse

/-- Digit-run scanner for Python's `int()`: one or more ASCII digits with
single underscores allowed between digits. -/
def pyDigitsGo (acc : Nat) : List Char → Option Nat
  | [] => some acc
  | '_' :: c :: rest =>
    if c.isDigit then pyDigitsGo (acc * 10 + (c.toNat - 48)) rest else none
  | ['_'] => none
  | c :: rest =>
    if c.isDigit then pyDigitsGo (acc * 10 + (c.toNat - 48)) rest else none

/-- Value of a Python integer-literal digit run (no sign). -/
def pyDigitsVal : List Char → Option Nat
  | [] => none
  | c :: rest =>
    if c.isDigit then pyDigitsGo (c.toNat - 48) rest else none

/-- Model of Python's `int(str)`: strips whitespace, accepts an optional
`+`/`-` sign followed by digits (underscore grouping allowed); `none` models
the `ValueError` the CLI catches. -/
def pyInt (s : List Char) : Option Int :=
  match stripWS s with
  | '+' :: ds => (pyDigitsVal ds).map (fun n => (n : Int))
  | '-' :: ds => (pyDigitsVal ds).map (fun n => -(n : Int))
  | ds => (pyDigitsVal ds).map (fun n => (n : Int))

/-- Outcome of one iteration of the interactive selection loop in `main`
(`src/torrent_client.py` lines 340–375). -/
inductive LoopAction where
  | quit
  | openIdx : Nat → LoopAction
  | reprompt
deriving DecidableEq

/-- One iteration of the selection loop of `main` (lines 340–375): `q` (after
lowercasing and stripping) quits; a `ValueError` from `int()` re-prompts; an
index out of `0 ≤ choice < len(all_results)` re-prompts; for a valid choice
of a 1337x row whose magnet fetch fails (network oracle `fetchOk`), the loop
re-prompts; otherwise `open_magnet_link` is invoked on the chosen row. -/
def selectionStep (numResults : Nat) (src1337 : Nat → Bool) (fetchOk : Nat → Bool)
    (input : List Char) : LoopAction :=
  if stripWS (input.map Char.toLower) = ['q'] then .quit
  else
    match pyInt input with
    | none => .reprompt
    | some i =>
      let choice := i - 1
      if 0 ≤ choice ∧ choice < (numResults : Int) then
        if src1337 choice.toNat then
          if fetchOk choice.toNat then .openIdx choice.toNat else .reprompt
        else .openIdx choice.toNat
      else .reprompt

/-- `TorrentResult` (`src/torrent_client.py` lines 91–102). -/
structure TorrentResult where
  title : List Char
  size : List Char
  seeders : Int
  leechers : Int
  magnet_link : List Char
  uploader : List Char
  source : List Char
  file_count : Option Int := none
  upload_date : Option (List Char) := none
deriving DecidableEq

/-- The comparison `main` sorts by: seeders descending
(`all_results.sort(key=lambda x: x.seeders, reverse=True)`, line 312). -/
def seedGe (a b : TorrentResult) : Prop := b.seeders ≤ a.seeders

instance : DecidableRel seedGe := fun a b => by
  unfold seedGe
  infer_instance

/-- The sorted result list of `main` (line 312): a stable sort by seeder
count, descending. -/
def sortResults (rs : List TorrentResult) : List TorrentResult :=
  List.insertionSort seedGe rs

/-- The displayed table rows (lines 324–336): position `i` of the sorted list
is rendered with Index column `i + 1`. -/
def displayRows (rs : List TorrentResult) : List (Nat × TorrentResult) :=
  (sortResults rs).enum.map (fun p => (p.1 + 1, p.2))

/-- The `power_labels` dict of `_format_size` (line 175) as a partial lookup:
`none` models a `KeyError`. -/
def power_labels (n : Nat) : Option (List Char) :=
  [[], ['K'], ['M'], ['G'], ['T']].get? n

/-- The failure modes of `_format_size`: CPython raises `OverflowError` when
the `size_bytes /= power` true division produces a quotient beyond the IEEE
double range, and `power_labels[n]` would raise `KeyError` were `n` ever
outside `0..4`. -/
inductive SizeFormatError where
  | overflowError : SizeFormatError
  | keyError : SizeFormatError
deriving DecidableEq

/-- The least magnitude at which CPython's true division rounds to infinity
and raises `OverflowError`: `2^1024 − 2^970`, the round-to-nearest overflow
boundary of IEEE doubles (the midpoint between the largest finite double
`2^1024 − 2^971` and `2^1024`; the tie rounds to the even `2^1024`). -/
def floatOverflowBound : ℚ := 2 ^ 1024 - 2 ^ 970

/-- The least `size_bytes` for which `_format_size`'s first division
`size_bytes / 1024` raises `OverflowError` in CPython:
`1024 * (2^1024 − 2^970) = 2^1034 − 2^980` (≈ 1.84·10^311). Verified against
CPython: `(2^1034 − 2^980 − 1) / 1024` yields the largest finite double and
`(2^1034 − 2^980) / 1024` raises. -/
def overflowThreshold : Int := 2 ^ 1034 - 2 ^ 980

/-- The division loop of `_format_size` (lines 176–178):
`while size_bytes >= power and n < len(power_labels) - 1`, with
`size_bytes /= power` raising `OverflowError` when the exact quotient reaches
`floatOverflowBound` (possible only on the first division, where `size_bytes`
is still an `int`; a finite float divided by 1024 cannot overflow, and the
loop's values stay below the bound afterwards). The in-range magnitude
arithmetic is modelled by exact rationals in place of rounded doubles; the
claims proved about this function do not depend on that rounding. -/
def formatSizeLoop (x : ℚ) (n : Nat) : Except SizeFormatError (ℚ × Nat) :=
  if h : 1024 ≤ x ∧ n < 4 then
    if floatOverflowBound ≤ x / 1024 then .error .overflowError
    else formatSizeLoop (x / 1024) (n + 1)
  else .ok (x, n)
termination_by 4 - n
decreasing_by omega

/-- Fixed two-decimal rendering of the scaled value, modelling `f"{v:.2f}"`
over the exact rational (the float's rounded digits may differ; no claim
constrains them). -/
def renderFixed2 (x : ℚ) : List Char :=
  let c := (Int.floor (x * 100 + 1 / 2)).toNat
  (natDigits (c / 100)).map Char.ofNat ++
    '.' :: [Char.ofNat (48 + c % 100 / 10), Char.ofNat (48 + c % 100 % 10)]

/-- `ThePirateBayProvider._format_size` (`src/torrent_client.py` lines
169–179): `"0 B"` for non-positive sizes, otherwise the scaled value, a
space, the power label and `B`. An `Except.error` models an uncaught Python
exception: `overflowError` when the first division overflows the double
range, `keyError` for a failed `power_labels` lookup. -/
def formatSize (size_bytes : Int) : Except SizeFormatError (List Char) :=
  if size_bytes ≤ 0 then .ok ("0 B".data)
  else
    match formatSizeLoop ((size_bytes : Int) : ℚ) 0 with
    | .error e => .error e
    | .ok (x, n) =>
      match power_labels n with
      | some lab => .ok (renderFixed2 x ++ ' ' :: (lab ++ ['B']))
      | none => .error .keyError

/-! ## Witnesses: the claim theorems applied at concrete inputs -/

/-- A concrete two-row result list: seeders 1 and 5. -/
def sampleResults : List TorrentResult :=
  [⟨"a".data, "1 KB".data, 1, 0, "m1".data, "u1".data, "TPB".data, none, none⟩,
   ⟨"b".data, "2 KB".data, 5, 2, "m2".data, "u2".data, "1337x".data, none, none⟩]

/-! ## Theorems -/

/-- Every `Bencode` value has positive size (used for strong induction). -/
theorem Bencode.one_le_sizeOf (v : Bencode) : 1 ≤ sizeOf v := by
  cases v <;> simp_arith

/-- Member-aware induction principle for the nested inductive `Bencode`. -/
theorem Bencode.inductionOn {P : Bencode → Prop}
    (hint : ∀ n, P (.int n)) (hstr : ∀ s, P (.str s))
    (hlist : ∀ l, (∀ v ∈ l, P v) → P (.list l))
    (hdict : ∀ d, (∀ p ∈ d, P p.2) → P (.dict d)) : ∀ v, P v := by
  have H : ∀ n v, sizeOf v ≤ n → P v := by
    intro n
    induction n with
    | zero =>
      intro v hv
      exact absurd (Nat.lt_of_lt_of_le (Bencode.one_le_sizeOf v) hv) (by omega)
    | succ n ih =>
      intro v hv
      match v with
      | .int m => exact hint m
      | .str s => exact hstr s
      | .list l =>
        refine hlist l (fun w hw => ih w ?_)
        have h1 := List.sizeOf_lt_of_mem hw
        simp only [Bencode.list.sizeOf_spec] at hv
        omega
      | .dict d =>
        refine hdict d (fun p hp => ih p.2 ?_)
        have h1 := List.sizeOf_lt_of_mem hp
        have h2 : sizeOf p.2 < sizeOf p := by
          obtain ⟨k, w⟩ := p
          simp_arith
        simp only [Bencode.dict.sizeOf_spec] at hv
        omega
  intro v
  exact H (sizeOf v) v (Nat.le_refl _)

theorem bytesLt_irrefl (a : List Nat) : bytesLt a a = false := by
  induction a with
  | nil => rfl
  | cons x xs ih => simp [bytesLt, ih]

theorem bytesLt_trans {a b c : List Nat} (h1 : bytesLt a b = true)
    (h2 : bytesLt b c = true) : bytesLt a c = true := by
  induction a generalizing b c with
  | nil =>
    cases b with
    | nil => simp [bytesLt] at h1
    | cons y ys =>
      cases c with
      | nil => simp [bytesLt] at h2
      | cons z zs => simp [bytesLt]
  | cons x xs ih =>
    cases b with
    | nil => simp [bytesLt] at h1
    | cons y ys =>
      cases c with
      | nil => simp [bytesLt] at h2
      | cons z zs =>
        simp only [bytesLt, Bool.or_eq_true, Bool.and_eq_true, decide_eq_true_eq] at h1 h2 ⊢
        rcases h1 with h1 | ⟨rfl, h1⟩
        · rcases h2 with h2 | ⟨rfl, h2⟩
          · exact Or.inl (Nat.lt_trans h1 h2)
          · exact Or.inl h1
        · rcases h2 with h2 | ⟨rfl, h2⟩
          · exact Or.inl h2
          · exact Or.inr ⟨rfl, ih h1 h2⟩

theorem bytesLt_total (a b : List Nat) :
    bytesLt a b = true ∨ a = b ∨ bytesLt b a = true := by
  induction a generalizing b with
  | nil =>
    cases b with
    | nil => exact Or.inr (Or.inl rfl)
    | cons y ys => exact Or.inl (by simp [bytesLt])
  | cons x xs ih =>
    cases b with
    | nil => exact Or.inr (Or.inr (by simp [bytesLt]))
    | cons y ys =>
      rcases Nat.lt_trichotomy x y with h | rfl | h
      · exact Or.inl (by simp [bytesLt, h])
      · rcases ih ys with h | rfl | h
        · exact Or.inl (by simp [bytesLt, h])
        · exact Or.inr (Or.inl rfl)
        · exact Or.inr (Or.inr (by simp [bytesLt, h]))
      · exact Or.inr (Or.inr (by simp [bytesLt, h]))

theorem bytesLt_ne {a b : List Nat} (h : bytesLt a b = true) : a ≠ b := by
  intro he
  subst he
  rw [bytesLt_irrefl] at h
  exact Bool.false_ne_true h

theorem bytesLe_of_lt {a b : List Nat} (h : bytesLt a b = true) :
    bytesLe a b = true := by simp [bytesLe, h]

theorem bytesLt_of_le_of_ne {a b : List Nat} (h : bytesLe a b = true)
    (hne : a ≠ b) : bytesLt a b = true := by
  simp only [bytesLe, Bool.or_eq_true, decide_eq_true_eq] at h
  rcases h with h | h
  · exact h
  · exact absurd h hne

instance : IsTotal (List Nat × Bencode) pairLe := by
  constructor
  intro p q
  rcases bytesLt_total p.1 q.1 with h | h | h
  · exact Or.inl (bytesLe_of_lt h)
  · exact Or.inl (by simp [pairLe, bytesLe, h])
  · exact Or.inr (bytesLe_of_lt h)

instance : IsTrans (List Nat × Bencode) pairLe := by
  constructor
  intro p q r h1 h2
  simp only [pairLe, bytesLe, Bool.or_eq_true, decide_eq_true_eq] at h1 h2 ⊢
  rcases h1 with h1 | h1
  · rcases h2 with h2 | h2
    · exact Or.inl (bytesLt_trans h1 h2)
    · exact Or.inl (h2 ▸ h1)
  · rcases h2 with h2 | h2
    · exact Or.inl (h1 ▸ h2)
    · exact Or.inr (h1.trans h2)

theorem natDigits_ne_nil (n : Nat) : natDigits n ≠ [] := by
  rw [natDigits]
  split
  · simp
  · simp

theorem natDigits_digits (n : Nat) : ∀ d ∈ natDigits n, isDigit d = true := by
  induction n using Nat.strong_induction_on with
  | _ n ih =>
    rw [natDigits]
    split
    · intro d hd
      simp only [List.mem_singleton] at hd
      subst hd
      simp only [isDigit, Bool.and_eq_true, decide_eq_true_eq]
      omega
    · intro d hd
      rcases List.mem_append.mp hd with h | h
      · exact ih (n / 10) (Nat.div_lt_self (by omega) (by omega)) d h
      · simp only [List.mem_singleton] at h
        subst h
        have : n % 10 < 10 := Nat.mod_lt _ (by omega)
        simp only [isDigit, Bool.and_eq_true, decide_eq_true_eq]
        omega

theorem natDigits_head_48 {n : Nat} {t : List Nat}
    (h : natDigits n = 48 :: t) : n = 0 ∧ t = [] := by
  induction n using Nat.strong_induction_on generalizing t with
  | _ n ih =>
    rw [natDigits] at h
    split at h
    · simp only [List.cons.injEq] at h
      constructor
      · omega
      · exact h.2.symm
    · rename_i hn
      rcases hq : natDigits (n / 10) with _ | ⟨d, ds⟩
      · exact absurd hq (natDigits_ne_nil _)
      · rw [hq, List.cons_append, List.cons.injEq] at h
        obtain ⟨rfl, _⟩ := h
        have := (ih (n / 10) (Nat.div_lt_self (by omega) (by omega)) hq).1
        omega

theorem digitsVal_append_one (ds : List Nat) (d : Nat) :
    digitsVal (ds ++ [d]) = digitsVal ds * 10 + (d - 48) := by
  simp [digitsVal, List.foldl_append]

theorem digitsVal_natDigits (n : Nat) : digitsVal (natDigits n) = n := by
  induction n using Nat.strong_induction_on with
  | _ n ih =>
    rw [natDigits]
    split
    · simp [digitsVal]
    · rw [digitsVal_append_one, ih (n / 10) (Nat.div_lt_self (by omega) (by omega))]
      have h1 : n % 10 < 10 := Nat.mod_lt _ (by omega)
      have h2 := Nat.div_add_mod n 10
      omega

theorem takeDigits_all_digits (bs : List Nat) :
    ∀ d ∈ (takeDigits bs).1, isDigit d = true := by
  induction bs with
  | nil => simp [takeDigits]
  | cons b bs ih =>
    simp only [takeDigits]
    split
    · rename_i hb
      intro d hd
      rcases List.mem_cons.mp hd with rfl | h
      · exact hb
      · exact ih d h
    · simp

theorem takeDigits_append {ds rest : List Nat}
    (hds : ∀ d ∈ ds, isDigit d = true)
    (hrest : ∀ b t, rest = b :: t → isDigit b = false) :
    takeDigits (ds ++ rest) = (ds, rest) := by
  induction ds with
  | nil =>
    simp only [List.nil_append]
    cases rest with
    | nil => rfl
    | cons b t =>
      simp only [takeDigits]
      rw [hrest b t rfl]
      simp
  | cons d ds ih =>
    have hd : isDigit d = true := hds d (by simp)
    have ihe := ih (fun x hx => hds x (by simp [hx]))
    simp [takeDigits, hd, ihe]

theorem canonicalBList_iff (l : List Bencode) :
    canonicalBList l = true ↔ ∀ v ∈ l, canonicalB v = true := by
  induction l with
  | nil => simp [canonicalBList]
  | cons v vs ih => simp [canonicalBList, ih]

theorem canonicalBPairs_iff (d : List (List Nat × Bencode)) :
    canonicalBPairs d = true ↔ ∀ p ∈ d, canonicalB p.2 = true := by
  induction d with
  | nil => simp [canonicalBPairs]
  | cons p ps ih => simp [canonicalBPairs, ih]

theorem validKeysList_iff (l : List Bencode) :
    validKeysList l = true ↔ ∀ v ∈ l, validKeys v = true := by
  induction l with
  | nil => simp [validKeysList]
  | cons v vs ih => simp [validKeysList, ih]

theorem validKeysPairs_iff (d : List (List Nat × Bencode)) :
    validKeysPairs d = true ↔ ∀ p ∈ d, validKeys p.2 = true := by
  induction d with
  | nil => simp [validKeysPairs]
  | cons p ps ih => simp [validKeysPairs, ih]

theorem canonList_eq_map (l : List Bencode) : canonList l = l.map canon := by
  induction l with
  | nil => rfl
  | cons v vs ih => simp [canonList, ih]

theorem canonPairs_eq_map (d : List (List Nat × Bencode)) :
    canonPairs d = d.map (fun p => (p.1, canon p.2)) := by
  induction d with
  | nil => rfl
  | cons p ps ih => simp [canonPairs, ih]

/-- `nodupKeys` expressed as pairwise key distinctness. -/
theorem nodupKeys_iff_pairwise (d : List (List Nat × Bencode)) :
    nodupKeys d = true ↔ List.Pairwise (fun p q => p.1 ≠ q.1) d := by
  induction d with
  | nil => simp [nodupKeys]
  | cons p ps ih =>
    constructor
    · intro h
      simp only [nodupKeys, Bool.and_eq_true] at h
      obtain ⟨h1, h2⟩ := h
      rw [Bool.not_eq_true', List.any_eq_false] at h1
      refine List.pairwise_cons.mpr ⟨fun q hq => ?_, ih.mp h2⟩
      exact fun he => h1 q hq (decide_eq_true he.symm)
    · intro h
      obtain ⟨h1, h2⟩ := List.pairwise_cons.mp h
      simp only [nodupKeys, Bool.and_eq_true]
      refine ⟨?_, ih.mpr h2⟩
      rw [Bool.not_eq_true', List.any_eq_false]
      intro q hq
      exact fun hd => h1 q hq (of_decide_eq_true hd).symm

/-- `keysStrictSorted` on the key list is pairwise strict order on the pairs. -/
theorem keysStrictSorted_iff_pairwise (d : List (List Nat × Bencode)) :
    keysStrictSorted (d.map Prod.fst) = true ↔
      List.Pairwise (fun p q => bytesLt p.1 q.1 = true) d := by
  induction d with
  | nil => simp [keysStrictSorted]
  | cons p ps ih =>
    cases ps with
    | nil => simp [keysStrictSorted]
    | cons q qs =>
      have hstep : keysStrictSorted ((p :: q :: qs).map Prod.fst) =
          (bytesLt p.1 q.1 && keysStrictSorted ((q :: qs).map Prod.fst)) := rfl
      rw [hstep, Bool.and_eq_true, ih]
      constructor
      · rintro ⟨h1, h2⟩
        refine List.pairwise_cons.mpr ⟨?_, h2⟩
        intro r hr
        rcases List.mem_cons.mp hr with rfl | hr
        · exact h1
        · exact bytesLt_trans h1 ((List.pairwise_cons.mp h2).1 r hr)
      · intro h
        obtain ⟨h1, h2⟩ := List.pairwise_cons.mp h
        exact ⟨h1 q (by simp), h2⟩

/-! ## Properties of canonicalization -/

/-- Canonicalizing a tree with unique dictionary keys yields a canonical tree
(every dictionary strictly sorted by key). -/
theorem canonicalB_canon : ∀ v, validKeys v = true → canonicalB (canon v) = true := by
  intro v
  induction v using Bencode.inductionOn with
  | hint n => intro _; rfl
  | hstr s => intro _; rfl
  | hlist l ih =>
    intro hv
    simp only [validKeys] at hv
    simp only [canon, canonicalB, canonList_eq_map]
    rw [canonicalBList_iff]
    intro w hw
    obtain ⟨u, hu, rfl⟩ := List.mem_map.mp hw
    exact ih u hu ((validKeysList_iff l).mp hv u hu)
  | hdict d ih =>
    intro hv
    simp only [validKeys, Bool.and_eq_true] at hv
    obtain ⟨hnd, hvp⟩ := hv
    simp only [canon, canonicalB, Bool.and_eq_true]
    have hperm : (sortPairs (canonPairs d)).Perm (canonPairs d) :=
      List.perm_insertionSort pairLe (canonPairs d)
    constructor
    · rw [keysStrictSorted_iff_pairwise]
      have hsorted : List.Pairwise pairLe (sortPairs (canonPairs d)) :=
        List.sorted_insertionSort pairLe (canonPairs d)
      have hne0 : List.Pairwise (fun p q : List Nat × Bencode => p.1 ≠ q.1) d :=
        (nodupKeys_iff_pairwise d).mp hnd
      have hne1 : List.Pairwise (fun p q : List Nat × Bencode => p.1 ≠ q.1) (canonPairs d) := by
        rw [canonPairs_eq_map]
        exact List.Pairwise.map _ (fun a b h => h) hne0
      have hne2 : List.Pairwise (fun p q : List Nat × Bencode => p.1 ≠ q.1)
          (sortPairs (canonPairs d)) :=
        (List.Perm.pairwise_iff (fun h => Ne.symm h) hperm |>.mpr hne1)
      refine (hsorted.and hne2).imp ?_
      intro a b hab
      exact bytesLt_of_le_of_ne hab.1 hab.2
    · rw [canonicalBPairs_iff]
      intro p hp
      have hp1 : p ∈ canonPairs d := hperm.mem_iff.mp hp
      rw [canonPairs_eq_map] at hp1
      obtain ⟨q, hq, rfl⟩ := List.mem_map.mp hp1
      exact ih q hq ((validKeysPairs_iff d).mp hvp q hq)

/-- Canonicalization fixes canonical trees. -/
theorem canon_eq_of_canonical : ∀ v, canonicalB v = true → canon v = v := by
  intro v
  induction v using Bencode.inductionOn with
  | hint n => intro _; rfl
  | hstr s => intro _; rfl
  | hlist l ih =>
    intro hv
    simp only [canonicalB] at hv
    simp only [canon, canonList_eq_map, Bencode.list.injEq]
    have : ∀ w ∈ l, canon w = w :=
      fun w hw => ih w hw ((canonicalBList_iff l).mp hv w hw)
    rw [List.map_congr_left this, List.map_id']
  | hdict d ih =>
    intro hv
    simp only [canonicalB, Bool.and_eq_true] at hv
    obtain ⟨hss, hcp⟩ := hv
    have hfix : canonPairs d = d := by
      rw [canonPairs_eq_map]
      have : ∀ p ∈ d, (fun p : List Nat × Bencode => (p.1, canon p.2)) p = p := by
        intro p hp
        have := ih p hp ((canonicalBPairs_iff d).mp hcp p hp)
        simp [this]
      rw [List.map_congr_left this, List.map_id']
    simp only [canon, hfix, Bencode.dict.injEq]
    apply List.Sorted.insertionSort_eq
    exact ((keysStrictSorted_iff_pairwise d).mp hss).imp
      (fun h => bytesLe_of_lt h)

/-- Canonical trees have unique dictionary keys. -/
theorem validKeys_of_canonical : ∀ v, canonicalB v = true → validKeys v = true := by
  intro v
  induction v using Bencode.inductionOn with
  | hint n => intro _; rfl
  | hstr s => intro _; rfl
  | hlist l ih =>
    intro hv
    simp only [canonicalB] at hv
    simp only [validKeys]
    rw [validKeysList_iff]
    exact fun w hw => ih w hw ((canonicalBList_iff l).mp hv w hw)
  | hdict d ih =>
    intro hv
    simp only [canonicalB, Bool.and_eq_true] at hv
    obtain ⟨hss, hcp⟩ := hv
    simp only [validKeys, Bool.and_eq_true]
    constructor
    · rw [nodupKeys_iff_pairwise]
      exact ((keysStrictSorted_iff_pairwise d).mp hss).imp (fun h => bytesLt_ne h)
    · rw [validKeysPairs_iff]
      exact fun p hp => ih p hp ((canonicalBPairs_iff d).mp hcp p hp)

/-- Canonicalizing twice is the same as canonicalizing once (on valid trees). -/
theorem canon_canon (v : Bencode) (hv : validKeys v = true) :
    canon (canon v) = canon v :=
  canon_eq_of_canonical (canon v) (canonicalB_canon v hv)

theorem costV_pos (v : Bencode) : 1 ≤ costV v := by
  cases v <;> simp [costV]

theorem natDigits_lead_zero {m : Nat} (h : (natDigits m).head? = some 48) :
    natDigits m = [48] := by
  rcases hq : natDigits m with _ | ⟨d, ds⟩
  · exact absurd hq (natDigits_ne_nil m)
  · rw [hq] at h
    simp only [List.head?_cons, Option.some.injEq] at h
    subst h
    obtain ⟨_, rfl⟩ := natDigits_head_48 hq
    rfl

/-- The first byte of any serialized value exists and is not the terminator
`e` (101): it is `i` (105), `l` (108), `d` (100), or an ASCII digit. -/
theorem encodeRaw_head (v : Bencode) :
    ∃ b t, encodeRaw v = b :: t ∧ b ≠ 101 ∧
      (b = 105 ∨ b = 108 ∨ b = 100 ∨ isDigit b = true) := by
  cases v with
  | int n => exact ⟨105, _, rfl, by omega, Or.inl rfl⟩
  | str s =>
    rcases hq : natDigits s.length with _ | ⟨d, ds⟩
    · exact absurd hq (natDigits_ne_nil _)
    · have hd : isDigit d = true := natDigits_digits s.length d (by rw [hq]; simp)
      refine ⟨d, ds ++ 58 :: s, ?_, ?_, Or.inr (Or.inr (Or.inr hd))⟩
      · simp [encodeRaw, encodeStr, hq]
      · simp only [isDigit, Bool.and_eq_true, decide_eq_true_eq] at hd
        omega
  | list l => exact ⟨108, _, rfl, by omega, Or.inr (Or.inl rfl)⟩
  | dict d => exact ⟨100, _, rfl, by omega, Or.inr (Or.inr (Or.inl rfl))⟩

/-- `parseStrBody` inverts `encodeStr`. -/
theorem parseStrBody_encodeStr (s : List Nat) (pos : Nat) (rest : List Nat) :
    parseStrBody pos (encodeStr s ++ rest) =
      .ok (s, pos + (encodeStr s).length, rest) := by
  have hts : encodeStr s ++ rest = natDigits s.length ++ (58 :: (s ++ rest)) := by
    simp [encodeStr]
  have htd : takeDigits (natDigits s.length ++ (58 :: (s ++ rest))) =
      (natDigits s.length, 58 :: (s ++ rest)) := by
    refine takeDigits_append (natDigits_digits _) ?_
    intro b t h
    cases h
    rfl
  rw [parseStrBody, hts, htd]
  simp only
  rw [if_neg (by simp [natDigits_ne_nil s.length])]
  have hlz : ((natDigits s.length).head? = some 48 && !(natDigits s.length = [48] : Bool)) = false := by
    by_cases hz : (natDigits s.length).head? = some 48
    · have := natDigits_lead_zero hz
      simp [this]
    · simp [hz]
  rw [if_neg (by simp_all)]
  simp only [digitsVal_natDigits]
  rw [if_neg (by simp only [List.length_append]; omega)]
  rw [List.take_left' rfl, List.drop_left]
  have hlen : pos + (natDigits s.length).length + 1 + s.length =
      pos + (encodeStr s).length := by
    simp [encodeStr]
    omega
  rw [hlen]

/-- `parseIntBody` inverts `intDigits`. -/
theorem parseIntBody_intDigits (n : Int) (pos : Nat) (rest : List Nat) :
    parseIntBody pos (intDigits n ++ 101 :: rest) =
      .ok (.int n, pos + (intDigits n).length + 1, rest) := by
  by_cases hn : n < 0
  · have hib : intDigits n = 45 :: natDigits n.natAbs := by simp [intDigits, hn]
    have habs : n.natAbs ≠ 0 := by omega
    have htd : takeDigits (natDigits n.natAbs ++ (101 :: rest)) =
        (natDigits n.natAbs, 101 :: rest) := by
      refine takeDigits_append (natDigits_digits _) ?_
      intro b t h
      cases h
      rfl
    rw [parseIntBody, hib]
    have hc : (((45 : Nat) :: natDigits n.natAbs) ++ 101 :: rest).head? = some 45 := by
      simp
    rw [if_pos hc]
    simp only [List.cons_append, List.tail_cons]
    rw [htd]
    simp only
    rw [if_neg (by simp [natDigits_ne_nil])]
    have hz : ¬ (natDigits n.natAbs).head? = some 48 := by
      intro h
      have h1 := natDigits_lead_zero h
      have h0 := digitsVal_natDigits n.natAbs
      rw [h1] at h0
      simp [digitsVal] at h0
      omega
    rw [if_neg (by simp [hz])]
    simp only [digitsVal_natDigits]
    have hval : -(n.natAbs : Int) = n := by omega
    rw [hval]
    have harith : pos + (natDigits n.natAbs).length + 2 =
        pos + (45 :: natDigits n.natAbs).length + 1 := by
      simp
      omega
    rw [harith]
  · have hib : intDigits n = natDigits n.toNat := by simp [intDigits, hn]
    have htd : takeDigits (natDigits n.toNat ++ (101 :: rest)) =
        (natDigits n.toNat, 101 :: rest) := by
      refine takeDigits_append (natDigits_digits _) ?_
      intro b t h
      cases h
      rfl
    have hhead : ¬ (natDigits n.toNat ++ (101 : Nat) :: rest).head? = some 45 := by
      rcases hq : natDigits n.toNat with _ | ⟨d, ds⟩
      · exact absurd hq (natDigits_ne_nil _)
      · have hd : isDigit d = true := natDigits_digits n.toNat d (by rw [hq]; simp)
        simp only [isDigit, Bool.and_eq_true, decide_eq_true_eq] at hd
        simp only [List.cons_append, List.head?_cons, Option.some.injEq]
        omega
    rw [parseIntBody, hib]
    rw [if_neg (by simpa using hhead)]
    rw [htd]
    simp only
    rw [if_neg (by simp [natDigits_ne_nil])]
    have hlz : ((natDigits n.toNat).head? = some 48 && !(natDigits n.toNat = [48] : Bool)) = false := by
      by_cases hz : (natDigits n.toNat).head? = some 48
      · have := natDigits_lead_zero hz
        simp [this]
      · simp [hz]
    rw [if_neg (by simp_all)]
    simp only [digitsVal_natDigits]
    have hval : (n.toNat : Int) = n := by omega
    rw [hval]

theorem costL_pos (l : List Bencode) : 1 ≤ costL l := by
  cases l <;> simp only [costL] <;> omega

theorem costP_pos (d : List (List Nat × Bencode)) : 1 ≤ costP d := by
  cases d <;> simp only [costP] <;> omega

/-- In a strictly key-sorted pair list, the head key does not recur. -/
theorem head_key_not_recur {p : List Nat × Bencode} {ps : List (List Nat × Bencode)}
    (h : keysStrictSorted ((p :: ps).map Prod.fst) = true) :
    ps.any (fun q => q.1 = p.1) = false := by
  have hpw := (keysStrictSorted_iff_pairwise (p :: ps)).mp h
  obtain ⟨h1, _⟩ := List.pairwise_cons.mp hpw
  rw [List.any_eq_false]
  intro q hq
  intro hd
  have : q.1 = p.1 := of_decide_eq_true hd
  exact bytesLt_ne (h1 q hq) this.symm

/-- The tail of a strictly key-sorted pair list is strictly key-sorted. -/
theorem keysStrictSorted_tail {p : List Nat × Bencode} {ps : List (List Nat × Bencode)}
    (h : keysStrictSorted ((p :: ps).map Prod.fst) = true) :
    keysStrictSorted (ps.map Prod.fst) = true := by
  have hpw := (keysStrictSorted_iff_pairwise (p :: ps)).mp h
  exact (keysStrictSorted_iff_pairwise ps).mpr (List.pairwise_cons.mp hpw).2

/-- `parseItems` inverts `encodeRawList` (given the property for elements). -/
theorem parseItems_encodeRawList (l : List Bencode)
    (H : ∀ v ∈ l, ParsesBack v) :
    canonicalBList l = true → ∀ fuel pos rest, costL l ≤ fuel →
      parseItems fuel pos (encodeRawList l ++ 101 :: rest) =
        .ok (l, pos + (encodeRawList l).length + 1, rest) := by
  induction l with
  | nil =>
    intro _ fuel pos rest hf
    cases fuel with
    | zero => exact absurd hf (by simp [costL])
    | succ f => simp [parseItems, encodeRawList]
  | cons v vs ih =>
    intro hc fuel pos rest hf
    simp only [costL] at hf
    cases fuel with
    | zero => exact absurd hf (by have h1 := costV_pos v; have h2 := costL_pos vs; omega)
    | succ f =>
      have hcv : canonicalB v = true := by
        simp only [canonicalBList, Bool.and_eq_true] at hc
        exact hc.1
      have hcvs : canonicalBList vs = true := by
        simp only [canonicalBList, Bool.and_eq_true] at hc
        exact hc.2
      obtain ⟨b, t, hbt, hbne, _⟩ := encodeRaw_head v
      have hbytes : encodeRawList (v :: vs) ++ 101 :: rest =
          b :: (t ++ (encodeRawList vs ++ 101 :: rest)) := by
        simp [encodeRawList, hbt]
      rw [hbytes]
      simp only [parseItems]
      rw [if_neg hbne]
      have hrw : b :: (t ++ (encodeRawList vs ++ 101 :: rest)) =
          encodeRaw v ++ (encodeRawList vs ++ 101 :: rest) := by
        simp [hbt]
      rw [hrw]
      rw [H v (by simp) hcv f pos (encodeRawList vs ++ 101 :: rest) (by omega)]
      have h2 := ih (fun w hw => H w (by simp [hw])) hcvs f
        (pos + (encodeRaw v).length) rest (by omega)
      simp only [h2, encodeRawList, List.length_append, Except.ok.injEq, Prod.mk.injEq,
        true_and, and_true]
      omega

/-- `parsePairs` inverts `encodeRawPairs` (given the property for values). -/
theorem parsePairs_encodeRawPairs (d : List (List Nat × Bencode))
    (H : ∀ p ∈ d, ParsesBack p.2) :
    canonicalBPairs d = true → keysStrictSorted (d.map Prod.fst) = true →
    ∀ fuel pos rest, costP d ≤ fuel →
      parsePairs fuel pos (encodeRawPairs d ++ 101 :: rest) =
        .ok (d, pos + (encodeRawPairs d).length + 1, rest) := by
  induction d with
  | nil =>
    intro _ _ fuel pos rest hf
    cases fuel with
    | zero => exact absurd hf (by simp [costP])
    | succ f => simp [parsePairs, encodeRawPairs]
  | cons p ps ih =>
    intro hc hss fuel pos rest hf
    simp only [costP] at hf
    cases fuel with
    | zero => exact absurd hf (by have h1 := costV_pos p.2; have h2 := costP_pos ps; omega)
    | succ f =>
      have hcv : canonicalB p.2 = true := by
        simp only [canonicalBPairs, Bool.and_eq_true] at hc
        exact hc.1
      have hcps : canonicalBPairs ps = true := by
        simp only [canonicalBPairs, Bool.and_eq_true] at hc
        exact hc.2
      rcases hq : natDigits p.1.length with _ | ⟨dg, ds⟩
      · exact absurd hq (natDigits_ne_nil _)
      have hdg : isDigit dg = true := natDigits_digits p.1.length dg (by rw [hq]; simp)
      have hdgn : 48 ≤ dg ∧ dg ≤ 57 := by
        simp only [isDigit, Bool.and_eq_true, decide_eq_true_eq] at hdg
        exact hdg
      have hbytes : encodeRawPairs (p :: ps) ++ 101 :: rest =
          dg :: (ds ++ 58 :: p.1 ++ (encodeRaw p.2 ++ (encodeRawPairs ps ++ 101 :: rest))) := by
        simp [encodeRawPairs, encodeStr, hq]
      rw [hbytes]
      simp only [parsePairs]
      rw [if_neg (by omega)]
      rw [if_pos hdg]
      have hrw : dg :: (ds ++ 58 :: p.1 ++ (encodeRaw p.2 ++ (encodeRawPairs ps ++ 101 :: rest))) =
          encodeStr p.1 ++ (encodeRaw p.2 ++ (encodeRawPairs ps ++ 101 :: rest)) := by
        simp [encodeStr, hq]
      rw [hrw]
      rw [parseStrBody_encodeStr]
      have h1 := H p (by simp) hcv f (pos + (encodeStr p.1).length)
        (encodeRawPairs ps ++ 101 :: rest) (by omega)
      have h2 := ih (fun w hw => H w (by simp [hw])) hcps (keysStrictSorted_tail hss) f
        (pos + (encodeStr p.1).length + (encodeRaw p.2).length) rest (by omega)
      have h3 : (ps.any (fun q => q.1 = p.1)) = false := head_key_not_recur hss
      simp only [h1, h2, h3, Bool.false_eq_true, if_false, encodeRawPairs,
        List.length_append, Except.ok.injEq, Prod.mk.injEq, true_and, and_true]
      omega

/-- Parsing the serialization of a canonical value returns exactly that value
and consumes exactly its encoding. -/
theorem parseVal_encodeRaw : ∀ v, ParsesBack v := by
  intro v
  induction v using Bencode.inductionOn with
  | hint n =>
    intro _ fuel pos rest hf
    cases fuel with
    | zero => exact absurd hf (by simp [costV])
    | succ f =>
      have hbytes : encodeRaw (.int n) ++ rest = 105 :: (intDigits n ++ 101 :: rest) := by
        simp [encodeRaw]
      rw [hbytes]
      rw [parseVal]
      rw [if_pos rfl]
      rw [parseIntBody_intDigits]
      simp only [encodeRaw, List.length_cons, List.length_nil, List.length_append,
        Except.ok.injEq, Prod.mk.injEq, true_and, and_true]
      omega
  | hstr s =>
    intro _ fuel pos rest hf
    cases fuel with
    | zero => exact absurd hf (by simp [costV])
    | succ f =>
      rcases hq : natDigits s.length with _ | ⟨dg, ds⟩
      · exact absurd hq (natDigits_ne_nil _)
      have hdg : isDigit dg = true := natDigits_digits s.length dg (by rw [hq]; simp)
      have hdgn : 48 ≤ dg ∧ dg ≤ 57 := by
        simp only [isDigit, Bool.and_eq_true, decide_eq_true_eq] at hdg
        exact hdg
      have hbytes : encodeRaw (.str s) ++ rest = dg :: (ds ++ 58 :: s ++ rest) := by
        simp [encodeRaw, encodeStr, hq]
      rw [hbytes]
      simp only [parseVal]
      rw [if_neg (by omega), if_neg (by omega), if_neg (by omega), if_pos hdg]
      have hrw : dg :: (ds ++ 58 :: s ++ rest) = encodeStr s ++ rest := by
        simp [encodeStr, hq]
      rw [hrw]
      rw [parseStrBody_encodeStr]
      simp only [encodeRaw]
  | hlist l ih =>
    intro hc fuel pos rest hf
    simp only [costV] at hf
    cases fuel with
    | zero => exact absurd hf (by have := costL_pos l; omega)
    | succ f =>
      have hbytes : encodeRaw (.list l) ++ rest = 108 :: (encodeRawList l ++ 101 :: rest) := by
        simp [encodeRaw]
      rw [hbytes]
      rw [parseVal]
      rw [if_neg (by omega), if_pos rfl]
      have hcl : canonicalBList l = true := hc
      have h2 := parseItems_encodeRawList l ih hcl f (pos + 1) rest (by omega)
      simp only [h2, encodeRaw, List.length_cons, List.length_nil, List.length_append,
        Except.ok.injEq, Prod.mk.injEq, true_and, and_true]
      omega
  | hdict d ih =>
    intro hc fuel pos rest hf
    simp only [costV] at hf
    cases fuel with
    | zero => exact absurd hf (by have := costP_pos d; omega)
    | succ f =>
      simp only [canonicalB, Bool.and_eq_true] at hc
      have hbytes : encodeRaw (.dict d) ++ rest = 100 :: (encodeRawPairs d ++ 101 :: rest) := by
        simp [encodeRaw]
      rw [hbytes]
      rw [parseVal]
      rw [if_neg (by omega), if_neg (by omega), if_pos rfl]
      have h2 := parsePairs_encodeRawPairs d ih hc.2 hc.1 f (pos + 1) rest (by omega)
      simp only [h2, encodeRaw, List.length_cons, List.length_nil, List.length_append,
        Except.ok.injEq, Prod.mk.injEq, true_and, and_true]
      omega

theorem costL_le_encodeRawList (l : List Bencode)
    (H : ∀ v ∈ l, costV v + 2 ≤ 2 * (encodeRaw v).length) :
    costL l ≤ 2 * (encodeRawList l).length + 1 := by
  induction l with
  | nil => simp [costL, encodeRawList]
  | cons v vs ih =>
    have h1 := H v (by simp)
    have h2 := ih (fun w hw => H w (by simp [hw]))
    simp only [costL, encodeRawList, List.length_append]
    omega

theorem costP_le_encodeRawPairs (d : List (List Nat × Bencode))
    (H : ∀ p ∈ d, costV p.2 + 2 ≤ 2 * (encodeRaw p.2).length) :
    costP d ≤ 2 * (encodeRawPairs d).length + 1 := by
  induction d with
  | nil => simp [costP, encodeRawPairs]
  | cons p ps ih =>
    have h1 := H p (by simp)
    have h2 := ih (fun w hw => H w (by simp [hw]))
    simp only [costP, encodeRawPairs, List.length_append]
    omega

/-- The fuel needed to parse an encoding is well below twice its length. -/
theorem costV_le_encodeRaw : ∀ v, costV v + 2 ≤ 2 * (encodeRaw v).length := by
  intro v
  induction v using Bencode.inductionOn with
  | hint n =>
    simp only [costV, encodeRaw, List.length_cons, List.length_append, List.length_nil]
    omega
  | hstr s =>
    have h1 : 1 ≤ (natDigits s.length).length :=
      List.length_pos.mpr (natDigits_ne_nil s.length)
    simp only [costV, encodeRaw, encodeStr, List.length_append, List.length_cons]
    omega
  | hlist l ih =>
    have h1 := costL_le_encodeRawList l ih
    simp only [costV, encodeRaw, List.length_cons, List.length_append, List.length_nil]
    omega
  | hdict d ih =>
    have h1 := costP_le_encodeRawPairs d ih
    simp only [costV, encodeRaw, List.length_cons, List.length_append, List.length_nil]
    omega

/-- Decoding the serialization of a canonical tree recovers it exactly. -/
theorem decode_encodeRaw {w : Bencode} (hw : canonicalB w = true) :
    decode (encodeRaw w) = .ok w := by
  have hcost : costV w ≤ 2 * (encodeRaw w).length + 2 := by
    have := costV_le_encodeRaw w
    omega
  have h := parseVal_encodeRaw w hw (2 * (encodeRaw w).length + 2) 0 [] hcost
  rw [List.append_nil] at h
  unfold decode
  rw [h]
  simp

theorem isSchemaErr_exists {e : TorrentError} (h : isSchemaErr e = true) :
    ∃ f, e = .schemaError f := by
  cases e with
  | schemaError f => exact ⟨f, rfl⟩
  | invalidEncoding f => simp [isSchemaErr] at h

theorem extractAnnounce_error {d : List (List Nat × Bencode)} {e : TorrentError}
    (h : extractAnnounce d = .error e) : isSchemaErr e = true := by
  unfold extractAnnounce at h
  repeat' split at h
  all_goals first
  | (subst h; rfl)
  | (simp only [Except.error.injEq] at h; subst h; rfl)
  | simp at h

theorem splitPieces_error {s : List Nat} {e : TorrentError}
    (h : splitPieces s = .error e) : isSchemaErr e = true := by
  suffices H : ∀ n s e, s.length ≤ n → splitPieces s = Except.error e →
      isSchemaErr e = true from H s.length s e (Nat.le_refl _) h
  intro n
  induction n with
  | zero =>
    intro s e hl hs
    match s with
    | [] => simp [splitPieces] at hs
    | b :: bs => simp at hl
  | succ n ih =>
    intro s e hl hs
    match s with
    | [] => simp [splitPieces] at hs
    | b :: bs =>
      rw [splitPieces] at hs
      split at hs
      · split at hs
        · simp at hs
        · rename_i heq
          simp only [Except.error.injEq] at hs
          subst hs
          exact ih _ _ (by simp at hl ⊢; omega) heq
      · simp only [Except.error.injEq] at hs
        subst hs
        rfl

theorem parseFile_error {v : Bencode} {e : TorrentError}
    (h : parseFile v = .error e) : isSchemaErr e = true := by
  unfold parseFile at h
  repeat' split at h
  all_goals first
  | (subst h; rfl)
  | (simp only [Except.error.injEq] at h; subst h; rfl)
  | simp at h

theorem parseFiles_error {l : List Bencode} {e : TorrentError}
    (h : parseFiles l = .error e) : isSchemaErr e = true := by
  induction l with
  | nil => simp [parseFiles] at h
  | cons f fs ih =>
    cases hf : parseFile f with
    | error e1 =>
      rw [parseFiles, hf] at h
      simp only [Except.error.injEq] at h
      subst h
      exact parseFile_error hf
    | ok e1 =>
      cases hfs : parseFiles fs with
      | error e2 =>
        rw [parseFiles, hf, hfs] at h
        simp only [Except.error.injEq] at h
        subst h
        exact ih hfs
      | ok es =>
        rw [parseFiles, hf, hfs] at h
        simp at h

theorem extractLayout_error {info : List (List Nat × Bencode)} {e : TorrentError}
    (h : extractLayout info = .error e) : isSchemaErr e = true := by
  unfold extractLayout at h
  repeat' split at h
  all_goals first
  | (subst h; rfl)
  | (simp only [Except.error.injEq] at h; subst h; rfl)
  | (rename_i heq
     simp only [Except.error.injEq] at h
     subst h
     exact parseFiles_error heq)
  | simp at h

theorem extractPieceLength_error {info : List (List Nat × Bencode)} {e : TorrentError}
    (h : extractPieceLength info = .error e) : isSchemaErr e = true := by
  unfold extractPieceLength at h
  repeat' split at h
  all_goals first
  | (subst h; rfl)
  | (simp only [Except.error.injEq] at h; subst h; rfl)
  | simp at h

theorem extractPieces_error {info : List (List Nat × Bencode)} {e : TorrentError}
    (h : extractPieces info = .error e) : isSchemaErr e = true := by
  unfold extractPieces at h
  split at h
  · exact splitPieces_error h
  · simp only [Except.error.injEq] at h
    subst h
    rfl
  · simp only [Except.error.injEq] at h
    subst h
    rfl

/-- Under the documented byte-preserving choice, every failure of the
extractor is a `SchemaError`. -/
theorem extractLayout_both {info : List (List Nat × Bencode)}
    (h1 : (lookupD info keyLength).isSome = true)
    (h2 : (lookupD info keyFiles).isSome = true) :
    extractLayout info = .error (.schemaError "length/files") := by
  obtain ⟨v1, hv1⟩ := Option.isSome_iff_exists.mp h1
  obtain ⟨v2, hv2⟩ := Option.isSome_iff_exists.mp h2
  unfold extractLayout
  rw [hv1, hv2]
  cases v1 <;> rfl

theorem extractLayout_neither {info : List (List Nat × Bencode)}
    (h1 : lookupD info keyLength = none) (h2 : lookupD info keyFiles = none) :
    extractLayout info = .error (.schemaError "length/files") := by
  unfold extractLayout
  rw [h1, h2]

theorem extractLayout_single {info : List (List Nat × Bencode)} {n : Int}
    (h : extractLayout info = .ok (.single n)) :
    (lookupD info keyLength).isSome = true ∧ lookupD info keyFiles = none := by
  cases hl : lookupD info keyLength with
  | none =>
    cases hf : lookupD info keyFiles with
    | none =>
      rw [extractLayout, hl, hf] at h
      simp at h
    | some w =>
      rw [extractLayout, hl, hf] at h
      cases w with
      | list fs =>
        cases hp : parseFiles fs with
        | ok es => simp [hp] at h
        | error e => simp [hp] at h
      | int m => simp at h
      | str s => simp at h
      | dict dd => simp at h
  | some v =>
    cases hf : lookupD info keyFiles with
    | none => exact ⟨by simp, rfl⟩
    | some w =>
      rw [extractLayout, hl, hf] at h
      simp at h

theorem extractLayout_multiple {info : List (List Nat × Bencode)} {fs : List FileEntry}
    (h : extractLayout info = .ok (.multiple fs)) :
    (lookupD info keyFiles).isSome = true ∧ lookupD info keyLength = none := by
  cases hl : lookupD info keyLength with
  | none =>
    cases hf : lookupD info keyFiles with
    | none =>
      rw [extractLayout, hl, hf] at h
      simp at h
    | some w => exact ⟨by simp, rfl⟩
  | some v =>
    cases hf : lookupD info keyFiles with
    | none =>
      rw [extractLayout, hl, hf] at h
      cases v with
      | int m => simp at h
      | str s => simp at h
      | list l => simp at h
      | dict dd => simp at h
    | some w =>
      rw [extractLayout, hl, hf] at h
      simp at h

theorem fromDecoded_error {root : Bencode} {e : TorrentError}
    (h : fromDecoded root = .error e) : isSchemaErr e = true := by
  unfold fromDecoded at h
  repeat' split at h
  all_goals first
  | (subst h; rfl)
  | (simp only [Except.error.injEq] at h; subst h; rfl)
  | (rename_i heq
     simp only [Except.error.injEq] at h
     subst h
     first
     | exact extractAnnounce_error heq
     | exact extractLayout_error heq
     | exact extractPieceLength_error heq
     | exact extractPieces_error heq)
  | simp at h

/-! ## Claim theorems for the spec-modelled core -/

/-- C1: on every input, each failure of the core pipeline is returned to the
caller as a structured error value — a decode failure propagates as exactly
that `DecodeError`, an extraction failure as exactly that structured error,
and a success as the metadata value; no failure is discarded, and the core
(being a pure function into `Except`) neither prints nor terminates the
process, leaving presentation and exit decisions to the caller. -/
theorem claim_C1_error_propagation (b : List Nat) :
    (∀ e, decode b = .error e → parseTorrent b = .error (.inl e)) ∧
    (∀ v e, decode b = .ok v → fromDecoded v = .error e →
      parseTorrent b = .error (.inr e)) ∧
    (∀ v m, decode b = .ok v → fromDecoded v = .ok m → parseTorrent b = .ok m) := by
  refine ⟨?_, ?_, ?_⟩
  · intro e he
    unfold parseTorrent
    rw [he]
  · intro v e hv he
    unfold parseTorrent
    rw [hv]
    simp [he]
  · intro v m hv hm
    unfold parseTorrent
    rw [hv]
    simp [hm]

/-- C3: for every valid Bencode tree whose dictionaries are already in
canonical (strictly ascending byte-lexicographic) key order, decoding the
encoding yields the tree back: `decode (encode v) = ok v`. -/
theorem claim_C3_roundtrip (v : Bencode) (hv : canonicalB v = true) :
    decode (encode v) = .ok v := by
  unfold encode
  rw [canon_eq_of_canonical v hv]
  exact decode_encodeRaw hv

/-- C2: `encode` emits every dictionary's pairs sorted by ascending
byte-lexicographic key order — its output is the serialization of a canonical
tree `w` — and this canonicalization is idempotent on every valid tree (keys
unique, order arbitrary): `decode (encode v)` succeeds with `w` and
`encode w = encode v`, i.e. `encode (decode (encode v)) = encode v`. -/
theorem claim_C2_canonicalization (v : Bencode) (hv : validKeys v = true) :
    ∃ w, canonicalB w = true ∧ encode v = encodeRaw w ∧
      decode (encode v) = .ok w ∧ encode w = encode v := by
  refine ⟨canon v, canonicalB_canon v hv, rfl, ?_, ?_⟩
  · unfold encode
    exact decode_encodeRaw (canonicalB_canon v hv)
  · unfold encode
    rw [canon_canon v hv]

/-- C4: the metadata extractor's piece splitting accepts a `pieces` byte
string exactly when its length is a multiple of 20 — a string of length
`20*k` splits into exactly `k` chunks of 20 bytes each whose concatenation in
order is the original string — and any other length fails with the documented
`SchemaError "pieces"`. -/
theorem claim_C4_piece_splitting (s : List Nat) :
    (20 ∣ s.length →
      ∃ cs, splitPieces s = .ok cs ∧ cs.length = s.length / 20 ∧
        (∀ c ∈ cs, c.length = 20) ∧ cs.flatten = s) ∧
    (¬ 20 ∣ s.length → splitPieces s = .error (.schemaError "pieces")) := by
  suffices H : ∀ n s, (s : List Nat).length ≤ n →
      ((20 ∣ s.length →
        ∃ cs, splitPieces s = .ok cs ∧ cs.length = s.length / 20 ∧
          (∀ c ∈ cs, c.length = 20) ∧ cs.flatten = s) ∧
      (¬ 20 ∣ s.length → splitPieces s = .error (.schemaError "pieces"))) from
    H s.length s (Nat.le_refl _)
  intro n
  induction n with
  | zero =>
    intro s hl
    match s with
    | [] =>
      constructor
      · intro _
        exact ⟨[], by rw [splitPieces], by simp, by simp, rfl⟩
      · intro hd
        exact absurd (by simp) hd
    | b :: bs => simp at hl
  | succ n ih =>
    intro s hl
    match s with
    | [] =>
      constructor
      · intro _
        exact ⟨[], by rw [splitPieces], by simp, by simp, rfl⟩
      · intro hd
        exact absurd (by simp) hd
    | b :: bs =>
      by_cases h20 : 20 ≤ (b :: bs).length
      · have ihd := ih ((b :: bs).drop 20) (by simp at hl ⊢; omega)
        constructor
        · intro hdvd
          have hdvd2 : 20 ∣ ((b :: bs).drop 20).length := by
            simp at hdvd ⊢
            omega
          obtain ⟨cs, hcs, hlen, hall, hfl⟩ := ihd.1 hdvd2
          refine ⟨(b :: bs).take 20 :: cs, ?_, ?_, ?_, ?_⟩
          · rw [splitPieces, if_pos h20, hcs]
          · rw [List.length_cons, hlen]
            simp only [List.length_drop, List.length_cons]
            simp only [List.length_cons] at hdvd h20
            omega
          · intro c hc
            rcases List.mem_cons.mp hc with rfl | hc
            · simp only [List.length_take]
              omega
            · exact hall c hc
          · rw [List.flatten_cons, hfl, List.take_append_drop]
        · intro hnd
          have hnd2 : ¬ 20 ∣ ((b :: bs).drop 20).length := by
            simp only [List.length_drop, List.length_cons]
            simp only [List.length_cons] at hnd h20
            omega
          rw [splitPieces, if_pos h20, ihd.2 hnd2]
      · constructor
        · intro hdvd
          exfalso
          simp at hdvd h20
          omega
        · intro _
          rw [splitPieces, if_neg h20]

/-- C5: given a root dictionary whose `info` entry is a dictionary, the
metadata extractor fails with a `SchemaError` whenever `info` contains both
`length` and `files`, and whenever it contains neither; and a successful
extraction has Single layout only when `length` alone is present and Multiple
layout only when `files` alone is present. -/
theorem claim_C5_schema_mutual_exclusion (d infoD : List (List Nat × Bencode))
    (hinfo : lookupD d keyInfo = some (.dict infoD)) :
    ((lookupD infoD keyLength).isSome = true ∧
        (lookupD infoD keyFiles).isSome = true →
      ∃ f, fromDecoded (.dict d) = .error (.schemaError f)) ∧
    (lookupD infoD keyLength = none ∧ lookupD infoD keyFiles = none →
      ∃ f, fromDecoded (.dict d) = .error (.schemaError f)) ∧
    (∀ m, fromDecoded (.dict d) = .ok m →
      ((∃ n, m.layout = .single n) →
        (lookupD infoD keyLength).isSome = true ∧ lookupD infoD keyFiles = none) ∧
      ((∃ fs, m.layout = .multiple fs) →
        (lookupD infoD keyFiles).isSome = true ∧ lookupD infoD keyLength = none)) := by
  have hfail : extractLayout infoD = .error (.schemaError "length/files") →
      ∃ f, fromDecoded (.dict d) = .error (.schemaError f) := by
    intro hL
    rw [fromDecoded]
    simp only [hinfo]
    cases hA : extractAnnounce d with
    | error e =>
      obtain ⟨f, hf⟩ := isSchemaErr_exists (extractAnnounce_error hA)
      exact ⟨f, by simp [hf]⟩
    | ok ann =>
      cases hN : lookupD infoD keyName with
      | none => exact ⟨"name", by simp⟩
      | some v =>
        cases v with
        | int m => exact ⟨"name", by simp⟩
        | list l => exact ⟨"name", by simp⟩
        | dict dd => exact ⟨"name", by simp⟩
        | str nm => exact ⟨"length/files", by simp [hL]⟩
  refine ⟨?_, ?_, ?_⟩
  · intro ⟨h1, h2⟩
    exact hfail (extractLayout_both h1 h2)
  · intro ⟨h1, h2⟩
    exact hfail (extractLayout_neither h1 h2)
  · intro m hm
    rw [fromDecoded] at hm
    simp only [hinfo] at hm
    cases hA : extractAnnounce d with
    | error e => simp [hA] at hm
    | ok ann =>
      simp only [hA] at hm
      cases hN : lookupD infoD keyName with
      | none => simp [hN] at hm
      | some v =>
        cases v with
        | int k => simp [hN] at hm
        | list l => simp [hN] at hm
        | dict dd => simp [hN] at hm
        | str nm =>
          simp only [hN] at hm
          cases hL : extractLayout infoD with
          | error e => simp [hL] at hm
          | ok lay =>
            simp only [hL] at hm
            cases hPL : extractPieceLength infoD with
            | error e => simp [hPL] at hm
            | ok pl =>
              simp only [hPL] at hm
              cases hPS : extractPieces infoD with
              | error e => simp [hPS] at hm
              | ok ps =>
                simp only [hPS, Except.ok.injEq] at hm
                subst hm
                constructor
                · intro ⟨n, hn⟩
                  simp only at hn
                  subst hn
                  exact extractLayout_single hL
                · intro ⟨fs, hfs⟩
                  simp only at hfs
                  subst hfs
                  exact extractLayout_multiple hL

/-- C7: the core operations are pure functions of their input alone — two
runs of decoding, encoding, extraction, or the whole pipeline on equal inputs
produce identical results (no file or network I/O exists in the core, which
maps an already-acquired buffer to a value). -/
theorem claim_C7_purity (b1 b2 : List Nat) (hb : b1 = b2) :
    decode b1 = decode b2 ∧ parseTorrent b1 = parseTorrent b2 ∧
    ∀ v1 v2 : Bencode, v1 = v2 →
      encode v1 = encode v2 ∧ fromDecoded v1 = fromDecoded v2 := by
  subst hb
  exact ⟨rfl, rfl, fun v1 v2 hv => by subst hv; exact ⟨rfl, rfl⟩⟩

instance : IsTotal TorrentResult seedGe :=
  ⟨fun a b => by unfold seedGe; omega⟩

instance : IsTrans TorrentResult seedGe :=
  ⟨fun a b c h1 h2 => by unfold seedGe at *; omega⟩

/-! ## Claim theorems for the CLI collaborator -/

/-- C6 (amended): `_build_magnet_link` embeds the provider-supplied
`info_hash` string verbatim between the `magnet:?xt=urn:btih:` marker and the
`&dn=` separator — no case normalization and no length validation — so the
rendered hash is 40 lowercase hex characters only if the provider supplied it
in that form. -/
theorem claim_C6_hash_verbatim (ihash nm : List Char)
    (h : ihash.all (fun c => c ≠ '&') = true) :
    magnetHashSegment (buildMagnetLink ihash nm) = ihash := by
  unfold magnetHashSegment buildMagnetLink
  simp only [List.append_assoc]
  rw [List.drop_left' (show ("magnet:?xt=urn:btih:".data).length = 20 by rfl)]
  have hsep : "&dn=".data ++ (quotePlus nm ++ trackerParams) =
      '&' :: ("dn=".data ++ (quotePlus nm ++ trackerParams)) := rfl
  rw [hsep]
  have h1 : List.takeWhile (fun c => c ≠ '&') ihash = ihash :=
    List.takeWhile_eq_self_iff.mpr (List.all_eq_true.mp h)
  rw [List.takeWhile_append, h1, if_pos rfl,
    List.takeWhile_cons_of_neg (by simp), List.append_nil]

/-- C6 (counterexample): for the provider-style uppercase 40-hex info hash
`0123456789ABCDEF0123456789ABCDEF01234567`, the hash rendered into the
constructed magnet link is that string verbatim and is not 40 lowercase hex
characters — the program applies no lowercasing. -/
theorem claim_C6_counterexample :
    magnetHashSegment (buildMagnetLink
        "0123456789ABCDEF0123456789ABCDEF01234567".data "test".data) =
      "0123456789ABCDEF0123456789ABCDEF01234567".data ∧
    isLowerHex40 (magnetHashSegment (buildMagnetLink
        "0123456789ABCDEF0123456789ABCDEF01234567".data "test".data)) = false := by
  decide

/-- C8: in the interactive selection loop, `open_magnet_link` is reached only
when the input parses under Python `int()` as a value `i + 1` with
`1 ≤ i + 1 ≤ numResults`; the input `q` (after lowercasing and stripping)
quits without opening; and every non-parsing or out-of-range input
re-prompts without opening. -/
theorem claim_C8_selection_loop (n : Nat) (src fetch : Nat → Bool)
    (input : List Char) :
    (∀ i, selectionStep n src fetch input = .openIdx i →
      pyInt input = some ((i : Int) + 1) ∧ 1 ≤ (i : Int) + 1 ∧
        (i : Int) + 1 ≤ (n : Int)) ∧
    (stripWS (input.map Char.toLower) = ['q'] →
      selectionStep n src fetch input = .quit) ∧
    (stripWS (input.map Char.toLower) ≠ ['q'] → pyInt input = none →
      selectionStep n src fetch input = .reprompt) ∧
    (∀ j, stripWS (input.map Char.toLower) ≠ ['q'] → pyInt input = some j →
      ¬(1 ≤ j ∧ j ≤ (n : Int)) → selectionStep n src fetch input = .reprompt) := by
  refine ⟨?_, ?_, ?_, ?_⟩
  · intro i hstep
    unfold selectionStep at hstep
    by_cases hq : stripWS (input.map Char.toLower) = ['q']
    · rw [if_pos hq] at hstep
      simp at hstep
    · rw [if_neg hq] at hstep
      cases hp : pyInt input with
      | none => simp [hp] at hstep
      | some j =>
        simp only [hp] at hstep
        by_cases hr : 0 ≤ j - 1 ∧ j - 1 < (n : Int)
        · rw [if_pos hr] at hstep
          have hidx : (j - 1).toNat = i := by
            by_cases hs : src (j - 1).toNat
            · rw [if_pos hs] at hstep
              by_cases hf : fetch (j - 1).toNat
              · rw [if_pos hf] at hstep
                exact (LoopAction.openIdx.injEq _ _).mp hstep.symm |>.symm ▸ rfl
              · rw [if_neg hf] at hstep
                simp at hstep
            · rw [if_neg hs] at hstep
              exact (LoopAction.openIdx.injEq _ _).mp hstep.symm |>.symm ▸ rfl
          have hji : (i : Int) = j - 1 := by
            rw [← hidx]
            exact Int.toNat_of_nonneg hr.1
          refine ⟨?_, by omega, by omega⟩
          congr 1
          omega
        · rw [if_neg hr] at hstep
          simp at hstep
  · intro hq
    unfold selectionStep
    rw [if_pos hq]
  · intro hq hp
    unfold selectionStep
    rw [if_neg hq]
    simp [hp]
  · intro j hq hp hr
    unfold selectionStep
    rw [if_neg hq]
    simp only [hp]
    rw [if_neg (by omega)]

/-- C9: the displayed table rows are a permutation of the aggregated result
list, sorted by seeder count in non-increasing order (row `i` has at least as
many seeders as any later row `j`), and the Index column numbers the rows
consecutively starting from 1. -/
theorem claim_C9_display_order (rs : List TorrentResult) :
    ((displayRows rs).map Prod.snd).Perm rs ∧
    (∀ (i j : Fin (displayRows rs).length), (i : Nat) < (j : Nat) →
      ((displayRows rs).get j).2.seeders ≤ ((displayRows rs).get i).2.seeders) ∧
    (displayRows rs).map Prod.fst = List.range' 1 rs.length := by
  have hsnd : (displayRows rs).map Prod.snd = sortResults rs := by
    unfold displayRows
    rw [List.map_map]
    rw [show (Prod.snd ∘ fun p : Nat × TorrentResult => (p.1 + 1, p.2)) =
      Prod.snd from rfl]
    exact List.enum_map_snd _
  have hperm : (sortResults rs).Perm rs := List.perm_insertionSort seedGe rs
  refine ⟨hsnd ▸ hperm, ?_, ?_⟩
  · intro i j hij
    have hsort : List.Sorted seedGe (sortResults rs) :=
      List.sorted_insertionSort seedGe rs
    have hlen : (displayRows rs).length = (sortResults rs).length := by
      simp [displayRows]
    have hi2 : (i : Nat) < (sortResults rs).length := by omega
    have hj2 : (j : Nat) < (sortResults rs).length := by omega
    have hgi : ((displayRows rs).get i).2 = (sortResults rs).get ⟨i, hi2⟩ := by
      simp [displayRows, List.get_eq_getElem, List.getElem_map, List.getElem_enum]
    have hgj : ((displayRows rs).get j).2 = (sortResults rs).get ⟨j, hj2⟩ := by
      simp [displayRows, List.get_eq_getElem, List.getElem_map, List.getElem_enum]
    rw [hgi, hgj]
    exact List.pairwise_iff_get.mp hsort ⟨i, hi2⟩ ⟨j, hj2⟩ hij
  · unfold displayRows
    rw [List.map_map]
    rw [show (Prod.fst ∘ fun p : Nat × TorrentResult => (p.1 + 1, p.2)) =
      ((fun k => k + 1) ∘ Prod.fst) from rfl]
    rw [← List.map_map, List.enum_map_fst, List.range'_eq_map_range]
    rw [hperm.length_eq]
    exact List.map_congr_left (fun a _ => by omega)

theorem floatOverflowBound_pos : (0 : ℚ) < floatOverflowBound := by
  unfold floatOverflowBound
  have h : (2 : ℚ) ^ 970 < 2 ^ 1024 :=
    pow_lt_pow_right₀ (by norm_num) (by norm_num)
  linarith

theorem overflowThreshold_cast :
    ((overflowThreshold : Int) : ℚ) = 1024 * floatOverflowBound := by
  unfold overflowThreshold floatOverflowBound
  push_cast
  have e1 : (2 : ℚ) ^ 1034 = 1024 * 2 ^ 1024 := by
    rw [show (1034 : Nat) = 10 + 1024 from rfl, pow_add]
    norm_num
  have e2 : (2 : ℚ) ^ 980 = 1024 * 2 ^ 970 := by
    rw [show (980 : Nat) = 10 + 970 from rfl, pow_add]
    norm_num
  rw [e1, e2]
  ring

theorem overflowThreshold_big : (1024 : Int) ≤ overflowThreshold := by
  unfold overflowThreshold
  have h1 : (1024 : Int) ≤ 2 ^ 980 := by
    rw [show (1024 : Int) = 2 ^ 10 from by norm_num]
    exact pow_le_pow_right₀ (by norm_num) (by norm_num)
  have h2 : (2 : Int) ^ 980 + 2 ^ 980 = 2 ^ 981 := by
    rw [← two_mul, ← pow_succ']
  have h3 : (2 : Int) ^ 981 ≤ 2 ^ 1034 :=
    pow_le_pow_right₀ (by norm_num) (by norm_num)
  linarith

/-- Below the overflow threshold the division loop always returns, with unit
index at most 4. -/
theorem formatSizeLoop_ok :
    ∀ (k : Nat) (x : ℚ) (n : Nat), 4 - n ≤ k → n ≤ 4 → 0 ≤ x →
      x < 1024 * floatOverflowBound →
      ∃ x2 n2, formatSizeLoop x n = .ok (x2, n2) ∧ n2 ≤ 4 := by
  intro k
  induction k with
  | zero =>
    intro x n h4 hn hx0 hxb
    rw [formatSizeLoop]
    split
    · rename_i hc
      omega
    · exact ⟨x, n, rfl, hn⟩
  | succ k ih =>
    intro x n h4 hn hx0 hxb
    rw [formatSizeLoop]
    split
    · rename_i hc
      have hBpos := floatOverflowBound_pos
      have hdiv : x / 1024 < floatOverflowBound := by
        rw [div_lt_iff (by norm_num : (0 : ℚ) < 1024)]
        linarith
      rw [if_neg (by rw [not_le]; exact hdiv)]
      refine ih (x / 1024) (n + 1) (by omega) (by omega) (by positivity) ?_
      have : floatOverflowBound ≤ 1024 * floatOverflowBound := by nlinarith
      linarith
    · exact ⟨x, n, rfl, hn⟩

/-- At or beyond the threshold the first division overflows and
`_format_size` raises `OverflowError`. -/
theorem formatSize_overflow (s : Int) (h : overflowThreshold ≤ s) :
    formatSize s = .error .overflowError := by
  have hbig := overflowThreshold_big
  have hc1 : (1024 : ℚ) ≤ ((s : Int) : ℚ) := by exact_mod_cast le_trans hbig h
  have hc2 : floatOverflowBound ≤ ((s : Int) : ℚ) / 1024 := by
    rw [le_div_iff (by norm_num : (0 : ℚ) < 1024)]
    have hcast : (1024 : ℚ) * floatOverflowBound ≤ ((s : Int) : ℚ) := by
      rw [← overflowThreshold_cast]
      exact_mod_cast h
    linarith
  have hloop : formatSizeLoop ((s : Int) : ℚ) 0 = .error .overflowError := by
    rw [formatSizeLoop, dif_pos ⟨hc1, by norm_num⟩, if_pos hc2]
  unfold formatSize
  rw [if_neg (by omega), hloop]

theorem power_labels_total {m : Nat} (hm : m ≤ 4) :
    ∃ lab, power_labels m = some lab ∧
      lab ∈ ([[], ['K'], ['M'], ['G'], ['T']] : List (List Char)) := by
  match m, hm with
  | 0, _ => exact ⟨[], rfl, by simp⟩
  | 1, _ => exact ⟨['K'], rfl, by simp⟩
  | 2, _ => exact ⟨['M'], rfl, by simp⟩
  | 3, _ => exact ⟨['G'], rfl, by simp⟩
  | 4, _ => exact ⟨['T'], rfl, by simp⟩

/-- C10 (amended): `_format_size` returns exactly `"0 B"` for every
non-positive size; for every positive size below the float-overflow threshold
`2^1034 − 2^980` (≈ 1.84·10^311) the division loop terminates with unit index
at most 4, the `power_labels` lookup succeeds and the result ends in one of
the suffixes `B`, `KB`, `MB`, `GB`, `TB`; but for every size at or beyond the
threshold the first true division overflows the IEEE-double range and the
function raises `OverflowError` instead of returning a string — it is not
total on integer inputs. -/
theorem claim_C10_format_size (s : Int) :
    (s ≤ 0 → formatSize s = .ok ("0 B".data)) ∧
    (0 < s → s < overflowThreshold →
      ∃ x n, formatSizeLoop ((s : Int) : ℚ) 0 = .ok (x, n) ∧ n ≤ 4 ∧
        ∃ lab, power_labels n = some lab ∧
          lab ∈ ([[], ['K'], ['M'], ['G'], ['T']] : List (List Char)) ∧
          formatSize s = .ok (renderFixed2 x ++ ' ' :: (lab ++ ['B']))) ∧
    (overflowThreshold ≤ s → formatSize s = .error .overflowError) := by
  refine ⟨?_, ?_, fun h => formatSize_overflow s h⟩
  · intro hs
    unfold formatSize
    rw [if_pos hs]
  · intro hs hlt
    have hx0 : (0 : ℚ) ≤ ((s : Int) : ℚ) := by exact_mod_cast le_of_lt hs
    have hxb : ((s : Int) : ℚ) < 1024 * floatOverflowBound := by
      rw [← overflowThreshold_cast]
      exact_mod_cast hlt
    obtain ⟨x, n, hok, hn⟩ :=
      formatSizeLoop_ok 4 (((s : Int) : ℚ)) 0 (by omega) (by omega) hx0 hxb
    obtain ⟨lab, hl, hmem⟩ := power_labels_total hn
    refine ⟨x, n, hok, hn, lab, hl, hmem, ?_⟩
    unfold formatSize
    rw [if_neg (by omega)]
    simp only [hok, hl]

theorem overflowThreshold_le_large : overflowThreshold ≤ (10 : Int) ^ 400 := by
  have h1 : overflowThreshold ≤ 2 ^ 1034 := by
    unfold overflowThreshold
    have h0 : (0 : Int) ≤ 2 ^ 980 := by positivity
    linarith
  have h2 : (2 : Int) ^ 1034 ≤ 2 ^ 1200 :=
    pow_le_pow_right₀ (by norm_num) (by norm_num)
  have h3 : (2 : Int) ^ 1200 = 8 ^ 400 := by
    rw [show (1200 : Nat) = 3 * 400 from rfl, pow_mul]
    norm_num
  have h4 : (8 : Int) ^ 400 ≤ 10 ^ 400 := pow_le_pow_left₀ (by norm_num) (by norm_num) 400
  linarith

theorem overflowThreshold_gt_1500 : (1500 : Int) < overflowThreshold := by
  have h1 : (1500 : Int) ≤ 2 ^ 980 :=
    le_trans (by norm_num) (pow_le_pow_right₀ (by norm_num) (by norm_num : (11 : Nat) ≤ 980))
  have h2 : (2 : Int) ^ 980 + 2 ^ 980 = 2 ^ 981 := by rw [← two_mul, ← pow_succ']
  have h3 : (2 : Int) ^ 981 < 2 ^ 1034 :=
    pow_lt_pow_right₀ (by norm_num) (by norm_num)
  unfold overflowThreshold
  linarith

/-- C10 (counterexample): at `size_bytes = 10^400`, a positive integer input,
`_format_size` raises `OverflowError` — the first division `10^400 / 1024`
exceeds the IEEE-double range — so the function is not total on integer
inputs and returns no suffixed string there, refuting the claimed totality. -/
theorem claim_C10_counterexample :
    formatSize ((10 : Int) ^ 400) = .error .overflowError :=
  formatSize_overflow _ overflowThreshold_le_large

theorem claim_C1_witness :
    parseTorrent [] = .error (.inl (.unexpectedEof 0)) :=
  (claim_C1_error_propagation []).1 (.unexpectedEof 0) (by rfl)

theorem claim_C2_witness :
    validKeys (Bencode.dict [([98], .int 1), ([97], .int 2)]) = true ∧
    ∃ w, canonicalB w = true ∧
      encode (Bencode.dict [([98], .int 1), ([97], .int 2)]) = encodeRaw w ∧
      decode (encode (Bencode.dict [([98], .int 1), ([97], .int 2)])) = .ok w ∧
      encode w = encode (Bencode.dict [([98], .int 1), ([97], .int 2)]) :=
  ⟨by decide, claim_C2_canonicalization _ (by decide)⟩

theorem claim_C3_witness :
    canonicalB (Bencode.dict [([97], .int 5), ([98], .str [1, 2])]) = true ∧
    decode (encode (Bencode.dict [([97], .int 5), ([98], .str [1, 2])])) =
      .ok (Bencode.dict [([97], .int 5), ([98], .str [1, 2])]) :=
  ⟨by decide, claim_C3_roundtrip _ (by decide)⟩

theorem claim_C4_witness :
    (∃ cs, splitPieces (List.replicate 40 7) = .ok cs ∧
      cs.length = (List.replicate 40 7).length / 20 ∧
      (∀ c ∈ cs, c.length = 20) ∧ cs.flatten = List.replicate 40 7) ∧
    splitPieces (List.replicate 30 7) = .error (.schemaError "pieces") :=
  ⟨(claim_C4_piece_splitting _).1 (by decide),
   (claim_C4_piece_splitting _).2 (by decide)⟩

theorem claim_C5_witness :
    (∃ f, fromDecoded (.dict [(keyInfo,
        .dict [(keyLength, .int 1), (keyFiles, .list [])])]) =
      .error (.schemaError f)) ∧
    (∃ f, fromDecoded (.dict [(keyInfo, .dict [(keyName, .str [120])])]) =
      .error (.schemaError f)) :=
  ⟨(claim_C5_schema_mutual_exclusion
      [(keyInfo, .dict [(keyLength, .int 1), (keyFiles, .list [])])]
      [(keyLength, .int 1), (keyFiles, .list [])] (by rfl)).1 ⟨by rfl, by rfl⟩,
   (claim_C5_schema_mutual_exclusion
      [(keyInfo, .dict [(keyName, .str [120])])]
      [(keyName, .str [120])] (by rfl)).2.1 ⟨by rfl, by rfl⟩⟩

theorem claim_C6_witness :
    magnetHashSegment (buildMagnetLink "abc".data "a name".data) = "abc".data :=
  claim_C6_hash_verbatim _ _ (by decide)

theorem claim_C7_witness :
    decode [105, 48, 101] = decode [105, 48, 101] ∧
    parseTorrent [105, 48, 101] = parseTorrent [105, 48, 101] ∧
    ∀ v1 v2 : Bencode, v1 = v2 →
      encode v1 = encode v2 ∧ fromDecoded v1 = fromDecoded v2 :=
  claim_C7_purity _ _ rfl

theorem claim_C8_witness :
    pyInt "2".data = some (((1 : Nat) : Int) + 1) ∧
      1 ≤ ((1 : Nat) : Int) + 1 ∧ ((1 : Nat) : Int) + 1 ≤ ((3 : Nat) : Int) :=
  (claim_C8_selection_loop 3 (fun _ => false) (fun _ => false) "2".data).1 1
    (by decide)

theorem claim_C9_witness :
    ((displayRows sampleResults).get ⟨1, by decide⟩).2.seeders ≤
      ((displayRows sampleResults).get ⟨0, by decide⟩).2.seeders :=
  (claim_C9_display_order sampleResults).2.1 ⟨0, by decide⟩ ⟨1, by decide⟩
    (by decide)

theorem claim_C10_witness :
    ∃ x n, formatSizeLoop (((1500 : Int)) : ℚ) 0 = .ok (x, n) ∧ n ≤ 4 ∧
      ∃ lab, power_labels n = some lab ∧
        lab ∈ ([[], ['K'], ['M'], ['G'], ['T']] : List (List Char)) ∧
        formatSize 1500 = .ok (renderFixed2 x ++ ' ' :: (lab ++ ['B'])) :=
  (claim_C10_format_size 1500).2.1 (by decide) overflowThreshold_gt_1500

end TorrQ

